import Mathlib

/-!
Verification of the update-checker `util/update_scripts.py`.

The program text is shallowly embedded: file contents are `List Char`,
Python string operations (`strip`, `split`, `splitlines`, universal-newline
reading) are modelled as executable functions, external processes are
oracles (`CmdResult`), and Python exceptions are an explicit `Except`.
-/

set_option linter.unusedVariables false

namespace UpdateScripts

/-- Shorthand: the character list of a string literal. -/
def str (s : String) : List Char := s.data

/-- Python `str.isspace` characters relevant to `strip`/`split`
(ASCII whitespace as used by the scripts). -/
def isPySpace (c : Char) : Bool :=
  c = ' ' || c = '\t' || c = '\n' || c = '\r' || c = '\x0b' || c = '\x0c'

/-- A regex `\w` word character (ASCII model). -/
def isWordChar (c : Char) : Bool :=
  c.isAlpha || c.isDigit || c = '_'

/-- One of the two shell quote characters accepted by the parsing regex. -/
def isQuote (c : Char) : Bool :=
  c = '"' || c = '\''

/-- Python `str.strip()` (remove leading and trailing whitespace). -/
def pyStrip (l : List Char) : List Char :=
  ((l.dropWhile isPySpace).reverse.dropWhile isPySpace).reverse

/-- Split on a separator character, keeping empty segments
(Python `str.split(sep)` with an explicit separator). -/
def splitSep (sep : Char) : List Char → List (List Char)
  | [] => [[]]
  | c :: rest =>
    if c = sep then [] :: splitSep sep rest
    else
      match splitSep sep rest with
      | [] => [[c]]
      | l :: ls => (c :: l) :: ls

/-- Split on newline characters, keeping empty segments; this is the
line decomposition that `re.MULTILINE` induces on `\n`-normalized text. -/
def splitNl (cs : List Char) : List (List Char) := splitSep '\n' cs

/-- Join segments with `'\n'` (inverse of `splitNl`). -/
def joinNl : List (List Char) → List Char
  | [] => []
  | [l] => l
  | l :: ls => l ++ '\n' :: joinNl ls

/-- Python universal-newline translation performed by `open(...).read()`
in text mode: `\r\n` and lone `\r` both become `\n`. -/
def normNewlines : List Char → List Char
  | [] => []
  | c :: rest =>
    if c = '\r' then
      match rest with
      | '\n' :: rest2 => '\n' :: normNewlines rest2
      | [] => ['\n']
      | c2 :: rest2 => '\n' :: normNewlines (c2 :: rest2)
    else c :: normNewlines rest

/-- Helper for `pySplitlines`: accumulates the current line (reversed). -/
def pySplitlinesAux : List Char → List Char → List (List Char)
  | acc, [] => [acc.reverse]
  | acc, c :: rest =>
    if c = '\n' then
      if rest.isEmpty then [acc.reverse] else acc.reverse :: pySplitlinesAux [] rest
    else if c = '\r' then
      match rest with
      | '\n' :: rest2 =>
        if rest2.isEmpty then [acc.reverse] else acc.reverse :: pySplitlinesAux [] rest2
      | [] => [acc.reverse]
      | c2 :: rest2 => acc.reverse :: pySplitlinesAux [] (c2 :: rest2)
    else pySplitlinesAux (c :: acc) rest

/-- Python `str.splitlines()`: split at `\n`, `\r\n` or `\r`, with no
trailing empty line for a trailing terminator. -/
def pySplitlines (cs : List Char) : List (List Char) :=
  match cs with
  | [] => []
  | _ => pySplitlinesAux [] cs

/-- Helper for `pySplit`: current word accumulated in reverse. -/
def pySplitAux : List Char → List Char → List (List Char)
  | w, [] => if w.isEmpty then [] else [w.reverse]
  | w, c :: rest =>
    if isPySpace c then
      if w.isEmpty then pySplitAux [] rest else w.reverse :: pySplitAux [] rest
    else pySplitAux (c :: w) rest

/-- Python `str.split()` with no argument: split on whitespace runs,
dropping empty tokens. -/
def pySplit (cs : List Char) : List (List Char) := pySplitAux [] cs

/-- Python substring test `pat in s`. -/
def hasInfix (pat : List Char) : List Char → Bool
  | [] => pat.isEmpty
  | c :: rest => pat.isPrefixOf (c :: rest) || hasInfix pat rest

/-! ## Script variable model (`get_script_vars`, `update_script_content`) -/

/-- The per-line match of `re.match(r'^(\w+)=["\'](.*)["\']$', line.strip())`:
after stripping, a maximal nonempty word-character run, `=`, a quote
character, a greedy value, and a final quote character (the two quotes
need not be the same kind). -/
def parseAssign (line : List Char) : Option (List Char × List Char) :=
  let s := pyStrip line
  let name := s.takeWhile isWordChar
  match s.dropWhile isWordChar with
  | '=' :: q1 :: rest2 =>
    match rest2.getLast? with
    | some q2 =>
      if !name.isEmpty && isQuote q1 && isQuote q2 then
        some (name, rest2.dropLast)
      else none
    | none => none
  | _ => none

/-- A variable environment: `vars_dict.get(name)`. -/
def Vars : Type := List Char → Option (List Char)

/-- One step of the parsing scan: a matching line overwrites its name. -/
def varsStep (d : Vars) (l : List Char) : Vars :=
  match parseAssign l with
  | some p => fun m => if m = p.1 then some p.2 else d m
  | none => d

/-- `get_script_vars`: scan `content.splitlines()`, capturing matching
lines into a dict; a later assignment of the same name overwrites. -/
def get_script_vars (content : List Char) : Vars :=
  (pySplitlines content).foldl varsStep (fun _ => none)

/-- The value line `l` contributes for variable `W` (if `l` parses as an
assignment of `W`). -/
def parseFor (W l : List Char) : Option (List Char) :=
  match parseAssign l with
  | some p => if p.1 = W then some p.2 else none
  | none => none

/-- The value of the last line of `lines` that assigns `W` ("last
occurrence wins"). -/
def lastAssign (W : List Char) (lines : List (List Char)) : Option (List Char) :=
  List.findSome? (parseFor W) lines.reverse

/-- A plausible shell variable name: nonempty, all word characters.
Every variable name the orchestrator uses satisfies this. -/
def goodName (V : List Char) : Prop :=
  V ≠ [] ∧ ∀ c ∈ V, isWordChar c = true

instance (V : List Char) : Decidable (goodName V) := by
  unfold goodName
  exact instDecidableAnd

/-- The canonical replacement line `f'{var_name}="{new_value}"'`. -/
def canonicalLine (varName newValue : List Char) : List Char :=
  varName ++ '=' :: '"' :: newValue ++ ['"']

/-- The effect of `re.sub(f'^{var_name}=.*$', new_line, content, flags=re.MULTILINE)`
on one `\n`-free line segment: a line starting with `NAME=` is replaced
wholly by the canonical line, any other line is untouched.  (Replacement
backslash-escape processing is not modelled; the program only interpolates
word-character names and whitespace-free revision tokens.) -/
def replaceLine (varName newValue : List Char) (l : List Char) : List Char :=
  if (varName ++ ['=']).isPrefixOf l then canonicalLine varName newValue else l

/-- `update_script_content`: read the file with universal newlines,
replace every line matching `^{var_name}=.*$`, and write the result
back with `newline='\n'` (so the written file uses LF line endings). -/
def update_script_content (file varName newValue : List Char) : List Char :=
  joinNl ((splitNl (normNewlines file)).map (replaceLine varName newValue))

/-! ## Command runner and backend checkers -/

/-- Outcome of one `subprocess.run` invocation: the tool binary may be
absent (Python raises `FileNotFoundError`), or the process ran with a
return code, captured stdout and captured stderr. -/
inductive CmdResult
  | toolMissing
  | ran (returncode : Int) (stdout stderr : List Char)
deriving DecidableEq

/-- The Python exceptions the checkers can produce. -/
inductive PyExc
  | calledProcessError
  | fileNotFoundError
  | indexError
deriving DecidableEq

instance {ε α : Type} [DecidableEq ε] [DecidableEq α] : DecidableEq (Except ε α) := fun a b =>
  match a, b with
  | .ok x, .ok y => if h : x = y then .isTrue (by rw [h]) else .isFalse (by simp [h])
  | .error x, .error y => if h : x = y then .isTrue (by rw [h]) else .isFalse (by simp [h])
  | .ok _, .error _ => .isFalse (by simp)
  | .error _, .ok _ => .isFalse (by simp)

/-- Oracle for the Git commands the checker invokes. -/
structure GitEnv where
  remoteShow : List Char → CmdResult
  lsRemoteTags : List Char → List Char → CmdResult
  lsRemoteHeads : List Char → List Char → CmdResult

/-- Oracle for `svn info --non-interactive URL`. -/
structure SvnEnv where
  svnInfo : List Char → CmdResult

/-- Oracle for `hg init` and `hg in -f -n -l 1 URL`. -/
structure HgEnv where
  hgInit : CmdResult
  hgIn : List Char → CmdResult

/-- All three backend oracles. -/
structure Env where
  git : GitEnv
  svn : SvnEnv
  hg : HgEnv

/-- Python truthiness of an optional string: `None` and `""` are falsy. -/
def truthy : Option (List Char) → Bool
  | some v => !v.isEmpty
  | none => false

/-- The scan of `get_git_default_branch` over stdout: first line
containing `HEAD branch:` yields `line.split(":")[-1].strip()`. -/
def findHeadBranch : List (List Char) → Option (List Char)
  | [] => none
  | l :: ls =>
    if hasInfix (str "HEAD branch:") l then
      some (pyStrip (((splitSep ':' l).getLast?).getD []))
    else findHeadBranch ls

/-- `get_git_default_branch`: runs `git remote show URL` with `check=True`;
`CalledProcessError` is caught (returning `None`), but a missing `git`
binary (`FileNotFoundError`) escapes. -/
def get_git_default_branch (env : GitEnv) (repo_url : List Char) :
    Except PyExc (Option (List Char)) :=
  match env.remoteShow repo_url with
  | .toolMissing => .error .fileNotFoundError
  | .ran rc out _ =>
    if rc = 0 then .ok (findHeadBranch (pySplitlines out)) else .ok none

/-- `check_git_repo`: tag-filter lookup via
`git ls-remote --tags --refs URL refs/tags/FILTER` (taking the first
field of the **last** output line), or branch lookup via
`git ls-remote --heads URL refs/heads/BRANCH` (resolving the default
branch when none is recorded).  Only `CalledProcessError` is caught. -/
def check_git_repo (env : GitEnv) (repo_url _current_commit : List Char)
    (branch tag_filter : Option (List Char)) : Except PyExc (Option (List Char)) :=
  if truthy tag_filter then
    match env.lsRemoteTags repo_url (str "refs/tags/" ++ tag_filter.getD []) with
    | .toolMissing => .error .fileNotFoundError
    | .ran rc out _ =>
      if rc = 0 then
        match (pySplitlines (pyStrip out)).getLast? with
        | some lastLine => .ok (some (((pySplit lastLine).head?).getD []))
        | none => .ok none
      else .ok none
  else
    match (if truthy branch then .ok branch else get_git_default_branch env repo_url :
        Except PyExc (Option (List Char))) with
    | .error e => .error e
    | .ok bO =>
      if truthy bO then
        match env.lsRemoteHeads repo_url (str "refs/heads/" ++ bO.getD []) with
        | .toolMissing => .error .fileNotFoundError
        | .ran rc out _ =>
          if rc = 0 then
            if !(pyStrip out).isEmpty then .ok (some (((pySplit out).head?).getD []))
            else .ok none
          else .ok none
      else .ok none

/-- The stderr scan of `check_svn_repo` for an authentication prompt. -/
def authRequired (stderr : List Char) : Bool :=
  hasInfix (str "Authentication required") stderr ||
  hasInfix (str "Username:") stderr

/-- The stdout scan of `check_svn_repo`: the first line starting with
`Revision:` yields `line.split()[-1].strip()`. -/
def svnFindRevision : List (List Char) → Option (List Char)
  | [] => none
  | l :: ls =>
    if (str "Revision:").isPrefixOf l then
      some (pyStrip (((pySplit l).getLast?).getD []))
    else svnFindRevision ls

/-- `check_svn_repo`: runs `svn info --non-interactive URL` **without**
`check=True`, so a non-zero exit never raises; the auth scan of stderr
happens before the return-code test; a missing `svn` binary escapes. -/
def check_svn_repo (env : SvnEnv) (repo_url _current_rev : List Char) :
    Except PyExc (Option (List Char)) :=
  match env.svnInfo repo_url with
  | .toolMissing => .error .fileNotFoundError
  | .ran rc out err =>
    if authRequired err then .ok none
    else if rc = 0 then .ok (svnFindRevision (pySplitlines out))
    else .ok none

/-- The stdout scan of `check_hg_repo`: the first line containing
`changeset` yields `line.split(':')[2].strip()`; fewer than three
colon-separated fields raise `IndexError`. -/
def hgFindChangeset : List (List Char) → Except PyExc (Option (List Char))
  | [] => .ok none
  | l :: ls =>
    if hasInfix (str "changeset") l then
      match (splitSep ':' l).get? 2 with
      | some t => .ok (some (pyStrip t))
      | none => .error .indexError
    else hgFindChangeset ls

/-- `check_hg_repo`: `hg init` then `hg in -f -n -l 1 URL`, both with
`check=True`; `CalledProcessError` and `FileNotFoundError` are caught
(returning `None`), but the `IndexError` of the changeset parse is not. -/
def check_hg_repo (env : HgEnv) (repo_url _current_hgrev : List Char) :
    Except PyExc (Option (List Char)) :=
  match env.hgInit with
  | .toolMissing => .ok none
  | .ran rc _ _ =>
    if rc = 0 then
      match env.hgIn repo_url with
      | .toolMissing => .ok none
      | .ran rc2 out _ =>
        if rc2 = 0 then hgFindChangeset (pySplitlines out) else .ok none
    else .ok none

/-! ## Update orchestrator (`process_script`) -/

/-- The sentinel appended for a script with no slot-1 repository. -/
def checkmeMarker : List Char := str "\nxxx_CHECKME_xxx\n"

/-- The sentinel appended for a slot with an unrecognized revision scheme. -/
def unknownMarker : List Char := str "\nxxx_CHECKME_UNKNOWN_xxx\n"

/-- The slot suffixes scanned in order: `[''] + list(range(2, 10))`. -/
def suffixes : List (List Char) :=
  [str "", str "2", str "3", str "4", str "5", str "6", str "7", str "8", str "9"]

/-- `SCRIPT_REPO{suffix}`. -/
def repoVar (sfx : List Char) : List Char := str "SCRIPT_REPO" ++ sfx

/-- `SCRIPT_COMMIT{suffix}`. -/
def commitVar (sfx : List Char) : List Char := str "SCRIPT_COMMIT" ++ sfx

/-- `SCRIPT_REV{suffix}`. -/
def revVar (sfx : List Char) : List Char := str "SCRIPT_REV" ++ sfx

/-- `SCRIPT_HGREV{suffix}`. -/
def hgrevVar (sfx : List Char) : List Char := str "SCRIPT_HGREV" ++ sfx

/-- `SCRIPT_BRANCH{suffix}`. -/
def branchVar (sfx : List Char) : List Char := str "SCRIPT_BRANCH" ++ sfx

/-- `SCRIPT_TAGFILTER{suffix}`. -/
def tagfilterVar (sfx : List Char) : List Char := str "SCRIPT_TAGFILTER" ++ sfx

/-- Observable side effects of one `process_script` run: checker
invocations (external commands), file rewrites, and marker appends. -/
inductive Action
  | checkSvn (sfx repo : List Char)
  | checkHg (sfx repo : List Char)
  | checkGit (sfx repo : List Char)
  | writeVar (sfx name value : List Char)
  | markCheckme
  | markUnknown (sfx : List Char)
deriving DecidableEq

/-- The slot suffix an action belongs to (`markCheckme` only occurs at
slot 1). -/
def Action.sfx : Action → List Char
  | .checkSvn s _ => s
  | .checkHg s _ => s
  | .checkGit s _ => s
  | .writeVar s _ _ => s
  | .markCheckme => []
  | .markUnknown s => s

/-- Whether an action is a checker invocation (an external command). -/
def Action.isCheck : Action → Bool
  | .checkSvn _ _ => true
  | .checkHg _ _ => true
  | .checkGit _ _ => true
  | _ => false

/-- Whether an action is a marker append. -/
def Action.isMarker : Action → Bool
  | .markCheckme => true
  | .markUnknown _ => true
  | _ => false

/-- What the slot loop decides to do for one slot (computed before any
file mutation). -/
inductive SlotDecision
  | markCheck
  | stopSilent
  | markUnk
  | checkErr (act : Action) (e : PyExc)
  | checkWrite (act : Action) (name value : List Char)
  | checkNoWrite (act : Action)
deriving DecidableEq

/-- Result of one slot iteration: either the loop breaks (or an
exception aborts the whole scan), or it continues with the next slot. -/
inductive SlotStep
  | stop (file : List Char) (acts : List Action) (exc : Option PyExc)
  | cont (file : List Char) (acts : List Action)
deriving DecidableEq

/-- The file state after the step. -/
def SlotStep.file : SlotStep → List Char
  | .stop f _ _ => f
  | .cont f _ => f

/-- The actions of the step. -/
def SlotStep.acts : SlotStep → List Action
  | .stop _ a _ => a
  | .cont _ a => a

/-- The outcome of one dispatched backend check, given the checker's
result, the logged action, the variable to rewrite and its stored value:
an exception stops the scan; a truthy result different from the stored
value is written back; anything else is a no-op. -/
def branchDecision (res : Except PyExc (Option (List Char))) (act : Action)
    (name cur : List Char) : SlotDecision :=
  match res with
  | .error e => .checkErr act e
  | .ok newO =>
    match newO with
    | some v =>
      if !v.isEmpty && v ≠ cur then .checkWrite act name v else .checkNoWrite act
    | none => .checkNoWrite act

/-- The decision the slot loop of `process_script` makes for one suffix,
before touching the file: missing/empty `REPO{sfx}` appends the
manual-check marker at slot 1 and breaks (silently for later slots);
otherwise the first truthy variable among `REV`, `HGREV`, `COMMIT`
dispatches to its checker, whose result is compared to the stored value;
no recognized marker variable means the unknown-layout sentinel.  The
decision depends only on the parsed variables and the command oracles,
never on the current file bytes. -/
def slotDecision (env : Env) (vars : Vars) (sfx : List Char) : SlotDecision :=
  let repoO := vars (repoVar sfx)
  if truthy repoO then
    let repo := repoO.getD []
    if truthy (vars (revVar sfx)) then
      branchDecision (check_svn_repo env.svn repo ((vars (revVar sfx)).getD []))
        (.checkSvn sfx repo) (revVar sfx) ((vars (revVar sfx)).getD [])
    else if truthy (vars (hgrevVar sfx)) then
      branchDecision (check_hg_repo env.hg repo ((vars (hgrevVar sfx)).getD []))
        (.checkHg sfx repo) (hgrevVar sfx) ((vars (hgrevVar sfx)).getD [])
    else if truthy (vars (commitVar sfx)) then
      branchDecision
        (check_git_repo env.git repo ((vars (commitVar sfx)).getD [])
          (vars (branchVar sfx)) (vars (tagfilterVar sfx)))
        (.checkGit sfx repo) (commitVar sfx) ((vars (commitVar sfx)).getD [])
    else .markUnk
  else if sfx.isEmpty then .markCheck else .stopSilent

/-- The body of the slot loop of `process_script` for one suffix: act on
the slot's decision -- append a marker and break, abort on a checker
exception, rewrite the file (re-reading its current bytes, as
`update_script_content` does) and continue, or just continue. -/
def processOneSlot (env : Env) (vars : Vars) (sfx file : List Char) : SlotStep :=
  match slotDecision env vars sfx with
  | .markCheck => .stop (file ++ checkmeMarker) [.markCheckme] none
  | .stopSilent => .stop file [] none
  | .markUnk => .stop (file ++ unknownMarker) [.markUnknown sfx] none
  | .checkErr a e => .stop file [a] (some e)
  | .checkWrite a V v => .cont (update_script_content file V v) [a, .writeVar sfx V v]
  | .checkNoWrite a => .cont file [a]

/-- The result of processing one script: the final raw file bytes, the
side-effect trace, and the uncaught exception, if any. -/
structure ProcResult where
  file : List Char
  actions : List Action
  exc : Option PyExc
deriving DecidableEq

/-- The slot loop over a list of suffixes. -/
def processSlots (env : Env) (vars : Vars) : List (List Char) → List Char → ProcResult
  | [], file => ⟨file, [], none⟩
  | sfx :: rest, file =>
    match processOneSlot env vars sfx file with
    | .stop f a e => ⟨f, a, e⟩
    | .cont f a =>
      let r := processSlots env vars rest f
      ⟨r.file, a ++ r.actions, r.exc⟩

/-- `process_script`: read the file (universal newlines), parse the
variables once, honor `SCRIPT_SKIP`, then scan slots 1..9. -/
def process_script (env : Env) (file : List Char) : ProcResult :=
  let vars := get_script_vars (normNewlines file)
  if vars (str "SCRIPT_SKIP") ≠ none then ⟨file, [], none⟩
  else processSlots env vars suffixes file

/-! ## Derived notions used by the orchestrator theorems -/

/-- A revision token extracted from command output: free of newlines and
carriage returns (it comes from whitespace splitting of a line). -/
def tokenSafe (v : List Char) : Prop := '\n' ∉ v ∧ '\r' ∉ v

/-- Apply a sequence of variable rewrites to a file, in order. -/
def applyWrites (file : List Char) (ws : List (List Char × List Char)) : List Char :=
  ws.foldl (fun f w => update_script_content f w.1 w.2) file

/-- No manual-check marker was appended. -/
def noMarkerActions (acts : List Action) : Prop := ∀ a ∈ acts, a.isMarker = false

/-- The `(variable, value)` rewrites recorded in an action trace. -/
def writesOf (acts : List Action) : List (List Char × List Char) :=
  acts.filterMap (fun a =>
    match a with
    | .writeVar _ n v => some (n, v)
    | _ => none)

/-- Everything `process_script` guarantees about a rewrite it performed:
the value is a nonempty newline-free token, the variable is a well-formed
marker variable of some slot, that slot's dispatch conditions held, the
slot's checker returned exactly this value, and the value differs from
the stored one. -/
def WriteSpec (env : Env) (vars : Vars) (V v : List Char) : Prop :=
  v ≠ [] ∧ tokenSafe v ∧ goodName V ∧
  ∃ sfx, sfx ∈ suffixes ∧
    ((V = revVar sfx ∧ truthy (vars (repoVar sfx)) = true ∧
        truthy (vars (revVar sfx)) = true ∧
        check_svn_repo env.svn ((vars (repoVar sfx)).getD [])
          ((vars (revVar sfx)).getD []) = .ok (some v) ∧
        v ≠ (vars (revVar sfx)).getD []) ∨
     (V = hgrevVar sfx ∧ truthy (vars (repoVar sfx)) = true ∧
        truthy (vars (revVar sfx)) = false ∧
        truthy (vars (hgrevVar sfx)) = true ∧
        check_hg_repo env.hg ((vars (repoVar sfx)).getD [])
          ((vars (hgrevVar sfx)).getD []) = .ok (some v) ∧
        v ≠ (vars (hgrevVar sfx)).getD []) ∨
     (V = commitVar sfx ∧ truthy (vars (repoVar sfx)) = true ∧
        truthy (vars (revVar sfx)) = false ∧
        truthy (vars (hgrevVar sfx)) = false ∧
        truthy (vars (commitVar sfx)) = true ∧
        check_git_repo env.git ((vars (repoVar sfx)).getD [])
          ((vars (commitVar sfx)).getD [])
          (vars (branchVar sfx)) (vars (tagfilterVar sfx)) = .ok (some v) ∧
        v ≠ (vars (commitVar sfx)).getD []))

/-- Every line of `L` that begins with `V=` is exactly the canonical
`V="v"` line (the state of a file after `V` was rewritten to `v`). -/
def linesCanonical (V v : List Char) (L : List (List Char)) : Prop :=
  ∀ l ∈ L, (V ++ ['=']).isPrefixOf l = true → l = canonicalLine V v

/-! ## Spec-side definitions (for refinement comparison) -/

/-- Modelled from the spec: the fixed variable-name set
`{REPO, COMMIT, REV, HGREV, BRANCH, TAGFILTER, SKIP}` with optional
digit suffix 2-9 (claim C5's "names drawn from the fixed set"). -/
def specNames : List (List Char) :=
  [str "SCRIPT_REPO", str "SCRIPT_COMMIT", str "SCRIPT_REV", str "SCRIPT_HGREV",
   str "SCRIPT_BRANCH", str "SCRIPT_TAGFILTER", str "SCRIPT_SKIP"]

/-- Modelled from the spec: whether a name is a fixed-set base name
optionally suffixed with a digit 2-9. -/
def specName (n : List Char) : Bool :=
  specNames.any (fun b =>
    n = b || (str "23456789").any (fun d => n = b ++ [d]))

/-- Modelled from the spec: a line is captured exactly when it has the
shape `NAME="VALUE"` or `NAME='VALUE'` with matching quotes at the start
of the line (no stripping), `NAME` from the fixed set. -/
def specAssign (line : List Char) : Option (List Char × List Char) :=
  let name := line.takeWhile isWordChar
  match line.dropWhile isWordChar with
  | '=' :: q1 :: rest2 =>
    match rest2.getLast? with
    | some q2 =>
      if specName name && isQuote q1 && isQuote q2 && q1 = q2 then
        some (name, rest2.dropLast)
      else none
    | none => none
  | _ => none

/-- Helper: maximal runs of digits / non-digits of a tag name. -/
def verChunksAux : List Char → List Char → List (List Char)
  | w, [] => if w.isEmpty then [] else [w.reverse]
  | w, c :: rest =>
    match w with
    | [] => verChunksAux [c] rest
    | d :: _ =>
      if d.isDigit = c.isDigit then verChunksAux (c :: w) rest
      else w.reverse :: verChunksAux [c] rest

/-- Modelled from the spec: decompose a ref name into digit and
non-digit chunks for version-aware comparison (`--sort=v:refname`). -/
def verChunks (cs : List Char) : List (List Char) := verChunksAux [] cs

/-- Numeric value of a digit chunk. -/
def chunkNat (cs : List Char) : Nat :=
  cs.foldl (fun n c => n * 10 + (c.toNat - 48)) 0

/-- Bytewise (lexicographic) comparison of character lists. -/
def lexLt : List Char → List Char → Bool
  | [], [] => false
  | [], _ :: _ => true
  | _ :: _, [] => false
  | a :: as, b :: bs => if a = b then lexLt as bs else decide (a < b)

/-- Modelled from the spec: version-aware "less than" on ref names:
chunkwise, comparing digit chunks by numeric value and other chunks
bytewise, so `v1.3.0 < v1.10.0`. -/
def verLt (a b : List Char) : Bool :=
  go (verChunks a) (verChunks b)
where
  go : List (List Char) → List (List Char) → Bool
    | [], [] => false
    | [], _ :: _ => true
    | _ :: _, [] => false
    | x :: xs, y :: ys =>
      if x = y then go xs ys
      else if x.all Char.isDigit && y.all Char.isDigit then
        if chunkNat x = chunkNat y then go xs ys else decide (chunkNat x < chunkNat y)
      else lexLt x y

/-- Modelled from the spec: among remote `(commit, refname)` tag pairs
matching the filter, select the commit of the version-aware highest
refname ("take the last (highest) match"); no match means no result. -/
def specTagSelect (tags : List (List Char × List Char)) : Option (List Char) :=
  (tags.foldl
    (fun best t =>
      match best with
      | none => some t
      | some b => if verLt b.2 t.2 then some t else some b)
    none).map Prod.fst

/-- Whether a list of `(commit, refname)` pairs is in bytewise-ascending
refname order -- the order in which `git ls-remote` without `--sort`
lists refs (the remote advertises refs sorted bytewise). -/
def refnameSorted : List (List Char × List Char) → Bool
  | [] => true
  | [_] => true
  | a :: b :: rest => lexLt a.2 b.2 && refnameSorted (b :: rest)

/-- The stdout `git ls-remote --tags --refs` produces for a list of
`(commit, refname)` pairs: one `HASH\tREFNAME` line per tag. -/
def lsRemoteStdout (tags : List (List Char × List Char)) : List Char :=
  tags.foldr (fun t acc => t.1 ++ '\t' :: t.2 ++ '\n' :: acc) []


/-- A "clean" line: contains neither a newline nor a carriage return
(every segment produced by line splitting is clean). -/
def noNlCr (l : List Char) : Prop := '\n' ∉ l ∧ '\r' ∉ l

/-- Drop a single trailing empty segment (the difference between
`str.splitlines()` and splitting on every `'\n'`). -/
def stripTrailEmpty (ls : List (List Char)) : List (List Char) :=
  if ls.getLast? = some [] then ls.dropLast else ls

/-! ## Concrete fixtures for the claim theorems -/

instance decNoMarkerActions (acts : List Action) : Decidable (noMarkerActions acts) := by
  unfold noMarkerActions
  exact List.decidableBAll _ acts

/-- An environment in which none of the three tools is installed. -/
def envMissing : Env :=
  ⟨⟨fun _ => .toolMissing, fun _ _ => .toolMissing, fun _ _ => .toolMissing⟩,
   ⟨fun _ => .toolMissing⟩, ⟨.toolMissing, fun _ => .toolMissing⟩⟩

/-- Remote tags v1.10.0, v1.2.0, v1.3.0 in the bytewise refname order
`git ls-remote` emits (no `--sort` flag is passed); version-aware order
would put v1.10.0 last. -/
def c1Tags : List (List Char × List Char) :=
  [(str "1111111", str "refs/tags/v1.10.0"),
   (str "2222222", str "refs/tags/v1.2.0"),
   (str "3333333", str "refs/tags/v1.3.0")]

/-- A Git oracle whose tag listing answers with `c1Tags`. -/
def c1Git : GitEnv :=
  ⟨fun _ => .toolMissing, fun _ _ => .ran 0 (lsRemoteStdout c1Tags) [],
   fun _ _ => .toolMissing⟩

/-- A Git oracle whose tag listing is empty (no tag matches the filter). -/
def c1GitNone : GitEnv :=
  ⟨fun _ => .toolMissing, fun _ _ => .ran 0 [] [], fun _ _ => .toolMissing⟩

/-- A script with an assignment line but no `SCRIPT_` variables at all. -/
def fileNoRepo : List Char := str "PROJECT=\"demo\"\n"

/-- An SVN oracle that reports revision 7 for every repository. -/
def envSvn7 : Env :=
  ⟨⟨fun _ => .toolMissing, fun _ _ => .toolMissing, fun _ _ => .toolMissing⟩,
   ⟨fun _ => .ran 0 (str "Revision: 7\n") []⟩, ⟨.toolMissing, fun _ => .toolMissing⟩⟩

/-- A one-slot SVN script currently at revision 5. -/
def fileSvn5 : List Char := str "SCRIPT_REPO=\"u\"\nSCRIPT_REV=\"5\"\n"

/-- Parsed variables of a single SVN slot (`REPO` and `REV` set). -/
def varsSvnSlot : Vars := fun W =>
  if W = str "SCRIPT_REPO" then some (str "u")
  else if W = str "SCRIPT_REV" then some (str "3")
  else none

/-- An SVN oracle that demands authentication yet prints a parsable
revision number on stdout. -/
def envSvnAuth : Env :=
  ⟨⟨fun _ => .toolMissing, fun _ _ => .toolMissing, fun _ _ => .toolMissing⟩,
   ⟨fun _ => .ran 0 (str "Revision: 42\n") (str "Authentication required")⟩,
   ⟨.toolMissing, fun _ => .toolMissing⟩⟩

/-- Parsed variables declaring slots 1 and 3 but not slot 2. -/
def varsGap : Vars := fun W =>
  if W = str "SCRIPT_REPO" then some (str "u")
  else if W = str "SCRIPT_REPO3" then some (str "w")
  else none

/-! ## Lemmas: splitting and joining lines -/

theorem splitSep_ne_nil (sep : Char) (cs : List Char) : splitSep sep cs ≠ [] := by
  cases cs with
  | nil => simp [splitSep]
  | cons c rest =>
    simp only [splitSep]
    split
    · simp
    · cases h : splitSep sep rest <;> simp

theorem sep_not_mem_splitSep {sep : Char} {cs l : List Char}
    (hl : l ∈ splitSep sep cs) : sep ∉ l := by
  induction cs generalizing l with
  | nil =>
    simp [splitSep] at hl
    simp [hl]
  | cons c rest ih =>
    simp only [splitSep] at hl
    by_cases hc : c = sep
    · rw [if_pos hc] at hl
      rcases List.mem_cons.mp hl with h | h
      · subst h; simp
      · exact ih h
    · rw [if_neg hc] at hl
      cases hsp : splitSep sep rest with
      | nil => exact absurd hsp (splitSep_ne_nil sep rest)
      | cons m ms =>
        rw [hsp] at hl
        simp only [] at hl
        have hm : m ∈ splitSep sep rest := by rw [hsp]; exact List.mem_cons_self m ms
        rcases List.mem_cons.mp hl with h | h
        · subst h
          intro hmem
          rcases List.mem_cons.mp hmem with h2 | h2
          · exact hc h2.symm
          · exact ih hm h2
        · exact ih (by rw [hsp]; exact List.mem_cons_of_mem m h)

theorem mem_of_mem_splitSep {sep c : Char} {cs l : List Char}
    (hl : l ∈ splitSep sep cs) (hc : c ∈ l) : c ∈ cs := by
  induction cs generalizing l with
  | nil =>
    simp [splitSep] at hl
    subst hl
    simp at hc
  | cons a rest ih =>
    simp only [splitSep] at hl
    by_cases ha : a = sep
    · rw [if_pos ha] at hl
      rcases List.mem_cons.mp hl with h | h
      · subst h; simp at hc
      · exact List.mem_cons_of_mem _ (ih h hc)
    · rw [if_neg ha] at hl
      cases hsp : splitSep sep rest with
      | nil => exact absurd hsp (splitSep_ne_nil sep rest)
      | cons m ms =>
        rw [hsp] at hl
        have hm : m ∈ splitSep sep rest := by rw [hsp]; exact List.mem_cons_self m ms
        rcases List.mem_cons.mp hl with h | h
        · subst h
          rcases List.mem_cons.mp hc with h2 | h2
          · simp [h2]
          · exact List.mem_cons_of_mem _ (ih hm h2)
        · exact List.mem_cons_of_mem _ (ih (by rw [hsp]; exact List.mem_cons_of_mem m h) hc)

theorem joinNl_splitNl (cs : List Char) : joinNl (splitNl cs) = cs := by
  induction cs with
  | nil => simp [splitNl, splitSep, joinNl]
  | cons c rest ih =>
    simp only [splitNl, splitSep] at *
    by_cases hc : c = '\n'
    · rw [if_pos hc]
      cases h : splitSep '\n' rest with
      | nil => exact absurd h (splitSep_ne_nil _ _)
      | cons m ms =>
        rw [h] at ih
        simp only [joinNl]
        rw [ih, hc]
        rfl
    · rw [if_neg hc]
      cases h : splitSep '\n' rest with
      | nil => exact absurd h (splitSep_ne_nil _ _)
      | cons m ms =>
        rw [h] at ih
        cases ms with
        | nil =>
          simp only [joinNl] at ih ⊢
          rw [ih]
        | cons m2 ms2 =>
          simp only [joinNl] at ih ⊢
          rw [List.cons_append, ih]

theorem splitNl_of_not_mem {l : List Char} (h : '\n' ∉ l) : splitNl l = [l] := by
  induction l with
  | nil => simp [splitNl, splitSep]
  | cons c rest ih =>
    have hc : c ≠ '\n' := fun hq => h (by simp [hq])
    have hr : '\n' ∉ rest := fun hq => h (List.mem_cons_of_mem _ hq)
    simp only [splitNl, splitSep] at *
    rw [if_neg hc, ih hr]

theorem splitNl_append_cons {l t : List Char} (h : '\n' ∉ l) :
    splitNl (l ++ '\n' :: t) = l :: splitNl t := by
  induction l with
  | nil => simp [splitNl, splitSep]
  | cons c rest ih =>
    have hc : c ≠ '\n' := fun hq => h (by simp [hq])
    have hr : '\n' ∉ rest := fun hq => h (List.mem_cons_of_mem _ hq)
    simp only [List.cons_append, List.append_eq, splitNl, splitSep] at *
    rw [if_neg hc, ih hr]

theorem splitNl_joinNl {ls : List (List Char)} (hne : ls ≠ [])
    (h : ∀ l ∈ ls, '\n' ∉ l) : splitNl (joinNl ls) = ls := by
  induction ls with
  | nil => exact absurd rfl hne
  | cons l rest ih =>
    cases rest with
    | nil =>
      simp only [joinNl]
      exact splitNl_of_not_mem (h l (List.mem_cons_self _ _))
    | cons m ms =>
      have hj : joinNl (l :: m :: ms) = l ++ '\n' :: joinNl (m :: ms) := rfl
      rw [hj, splitNl_append_cons (h l (List.mem_cons_self _ _))]
      rw [ih (by simp) (fun x hx => h x (List.mem_cons_of_mem _ hx))]

theorem mem_joinNl {c : Char} {ls : List (List Char)} (h : c ∈ joinNl ls) :
    c = '\n' ∨ ∃ l ∈ ls, c ∈ l := by
  induction ls with
  | nil => simp [joinNl] at h
  | cons l rest ih =>
    cases rest with
    | nil =>
      simp only [joinNl] at h
      exact Or.inr ⟨l, List.mem_cons_self _ _, h⟩
    | cons m ms =>
      have hj : joinNl (l :: m :: ms) = l ++ '\n' :: joinNl (m :: ms) := rfl
      rw [hj] at h
      rcases List.mem_append.mp h with h1 | h1
      · exact Or.inr ⟨l, List.mem_cons_self _ _, h1⟩
      · rcases List.mem_cons.mp h1 with h2 | h2
        · exact Or.inl h2
        · rcases ih h2 with h3 | ⟨x, hx, hcx⟩
          · exact Or.inl h3
          · exact Or.inr ⟨x, List.mem_cons_of_mem _ hx, hcx⟩

theorem cr_not_mem_normNewlines (cs : List Char) : '\r' ∉ normNewlines cs := by
  induction cs using normNewlines.induct with
  | case5 c rest hc ih =>
    rw [normNewlines.eq_def]
    simp only [if_neg hc]
    intro hmem
    rcases List.mem_cons.mp hmem with h1 | h1
    · exact hc h1.symm
    · exact ih h1
  | _ => simp_all [normNewlines]

theorem normNewlines_of_no_cr {cs : List Char} (h : '\r' ∉ cs) :
    normNewlines cs = cs := by
  induction cs with
  | nil => simp [normNewlines]
  | cons c rest ih =>
    have hc : c ≠ '\r' := fun hq => h (by simp [hq])
    have hr : '\r' ∉ rest := fun hq => h (List.mem_cons_of_mem _ hq)
    rw [normNewlines.eq_def]
    simp only [if_neg hc]
    rw [ih hr]

theorem normNewlines_idem (cs : List Char) :
    normNewlines (normNewlines cs) = normNewlines cs :=
  normNewlines_of_no_cr (cr_not_mem_normNewlines cs)

/-! ## Lemmas: Python splitlines / split / strip -/

theorem pySplitlinesAux_no_term {l : List Char}
    (h : ∀ c ∈ l, c ≠ '\n' ∧ c ≠ '\r') (acc s : List Char) :
    pySplitlinesAux acc (l ++ s) = pySplitlinesAux (l.reverse ++ acc) s := by
  induction l generalizing acc with
  | nil => simp
  | cons c rest ih =>
    have hc := h c (List.mem_cons_self _ _)
    have hr : ∀ x ∈ rest, x ≠ '\n' ∧ x ≠ '\r' := fun x hx => h x (List.mem_cons_of_mem _ hx)
    rw [List.cons_append, pySplitlinesAux.eq_def]
    simp only [if_neg hc.1, if_neg hc.2]
    rw [ih hr (c :: acc)]
    simp

theorem pySplitlines_single {l : List Char} (h : noNlCr l) (hne : l ≠ []) :
    pySplitlines l = [l] := by
  obtain ⟨h1, h2⟩ := h
  have hh : ∀ c ∈ l, c ≠ '\n' ∧ c ≠ '\r' := by
    intro c hc
    exact ⟨fun hq => h1 (hq ▸ hc), fun hq => h2 (hq ▸ hc)⟩
  cases l with
  | nil => exact absurd rfl hne
  | cons c rest =>
    show pySplitlinesAux [] (c :: rest) = [c :: rest]
    have := pySplitlinesAux_no_term hh [] []
    simp only [List.append_nil] at this
    rw [this]
    simp [pySplitlinesAux]

theorem pySplitlines_append_nl_nil {l : List Char} (h : noNlCr l) :
    pySplitlines (l ++ ['\n']) = [l] := by
  obtain ⟨h1, h2⟩ := h
  have hh : ∀ c ∈ l, c ≠ '\n' ∧ c ≠ '\r' := by
    intro c hc
    exact ⟨fun hq => h1 (hq ▸ hc), fun hq => h2 (hq ▸ hc)⟩
  have hne : l ++ ['\n'] ≠ [] := by simp
  cases he : l ++ ['\n'] with
  | nil => exact absurd he hne
  | cons c rest =>
    show pySplitlinesAux [] (c :: rest) = [l]
    rw [← he, pySplitlinesAux_no_term hh [] ['\n']]
    simp [pySplitlinesAux]

theorem pySplitlines_append_nl {l t : List Char} (h : noNlCr l) (ht : t ≠ []) :
    pySplitlines (l ++ '\n' :: t) = l :: pySplitlines t := by
  obtain ⟨h1, h2⟩ := h
  have hh : ∀ c ∈ l, c ≠ '\n' ∧ c ≠ '\r' := by
    intro c hc
    exact ⟨fun hq => h1 (hq ▸ hc), fun hq => h2 (hq ▸ hc)⟩
  have hne : l ++ '\n' :: t ≠ [] := by simp
  cases he : l ++ '\n' :: t with
  | nil => exact absurd he hne
  | cons c rest =>
    show pySplitlinesAux [] (c :: rest) = l :: pySplitlines t
    rw [← he, pySplitlinesAux_no_term hh [] ('\n' :: t)]
    rw [pySplitlinesAux.eq_def]
    simp only [if_pos rfl]
    have hte : t.isEmpty = false := by
      cases t with
      | nil => exact absurd rfl ht
      | cons a b => rfl
    rw [hte]
    simp only [Bool.false_eq_true, if_false, List.append_nil, List.reverse_reverse]
    cases t with
    | nil => exact absurd rfl ht
    | cons a b => rfl

theorem joinNl_eq_nil {ls : List (List Char)} (hne : ls ≠ []) :
    joinNl ls = [] ↔ ls = [[]] := by
  cases ls with
  | nil => exact absurd rfl hne
  | cons l rest =>
    cases rest with
    | nil =>
      simp [joinNl]
    | cons m ms =>
      have hj : joinNl (l :: m :: ms) = l ++ '\n' :: joinNl (m :: ms) := rfl
      rw [hj]
      simp

theorem pySplitlines_joinNl {ls : List (List Char)} (hne : ls ≠ [])
    (h : ∀ l ∈ ls, noNlCr l) :
    pySplitlines (joinNl ls) = stripTrailEmpty ls := by
  induction ls with
  | nil => exact absurd rfl hne
  | cons l rest ih =>
    cases rest with
    | nil =>
      simp only [joinNl]
      by_cases hl : l = []
      · subst hl
        simp [pySplitlines, stripTrailEmpty]
      · rw [pySplitlines_single (h l (List.mem_cons_self _ _)) hl]
        simp only [stripTrailEmpty]
        rw [if_neg]
        simp only [List.getLast?_singleton, Option.some.injEq]
        exact hl
    | cons m ms =>
      have hj : joinNl (l :: m :: ms) = l ++ '\n' :: joinNl (m :: ms) := rfl
      rw [hj]
      by_cases hmm : joinNl (m :: ms) = []
      · have : m :: ms = [[]] := (joinNl_eq_nil (by simp)).mp hmm
        rw [hmm, this]
        rw [pySplitlines_append_nl_nil (h l (List.mem_cons_self _ _))]
        simp [stripTrailEmpty]
      · rw [pySplitlines_append_nl (h l (List.mem_cons_self _ _)) hmm]
        rw [ih (by simp) (fun x hx => h x (List.mem_cons_of_mem _ hx))]
        simp only [stripTrailEmpty]
        have hg : (l :: m :: ms).getLast? = (m :: ms).getLast? := by
          rw [List.getLast?_cons_cons]
        rw [hg]
        by_cases hlast : (m :: ms).getLast? = some []
        · rw [if_pos hlast, if_pos hlast]
          rfl
        · rw [if_neg hlast, if_neg hlast]

theorem noNlCr_reverse_of {acc : List Char}
    (h : ∀ c ∈ acc, c ≠ '\n' ∧ c ≠ '\r') : noNlCr acc.reverse := by
  constructor
  · intro hm
    exact (h _ (List.mem_reverse.mp hm)).1 rfl
  · intro hm
    exact (h _ (List.mem_reverse.mp hm)).2 rfl

theorem pySplitlinesAux_clean (acc s : List Char) :
    (∀ c ∈ acc, c ≠ '\n' ∧ c ≠ '\r') → ∀ l ∈ pySplitlinesAux acc s, noNlCr l := by
  induction acc, s using pySplitlinesAux.induct with
  | _ =>
    intro hacc l hl
    rw [pySplitlinesAux.eq_def] at hl
    simp_all
    try exact noNlCr_reverse_of hacc
    try (rcases hl with h | h
         · exact h ▸ noNlCr_reverse_of hacc
         · solve_by_elim)

theorem pySplitlines_clean {s l : List Char} (h : l ∈ pySplitlines s) : noNlCr l := by
  cases s with
  | nil => simp [pySplitlines] at h
  | cons c rest =>
    have : pySplitlines (c :: rest) = pySplitlinesAux [] (c :: rest) := rfl
    rw [this] at h
    exact pySplitlinesAux_clean [] (c :: rest) (by simp) l h

theorem pySplitAux_no_space (w s : List Char) :
    (∀ c ∈ w, isPySpace c = false) → ∀ t ∈ pySplitAux w s, ∀ c ∈ t, isPySpace c = false := by
  induction w, s using pySplitAux.induct with
  | _ =>
    intro hw t ht c hc
    rw [pySplitAux.eq_def] at ht
    simp_all
    try exact hw c (List.mem_reverse.mp hc)
    try (rcases ht with h | h
         · exact hw c (List.mem_reverse.mp (h ▸ hc))
         · solve_by_elim)
    try solve_by_elim

theorem pySplit_no_space {s t : List Char} (ht : t ∈ pySplit s) :
    ∀ c ∈ t, isPySpace c = false :=
  pySplitAux_no_space [] s (by simp) t ht

theorem mem_of_mem_dropWhile {p : Char → Bool} {l : List Char} {c : Char}
    (h : c ∈ l.dropWhile p) : c ∈ l := by
  induction l with
  | nil => simp [List.dropWhile] at h
  | cons a t ih =>
    rw [List.dropWhile_cons] at h
    by_cases hp : p a = true
    · rw [if_pos hp] at h
      exact List.mem_cons_of_mem _ (ih h)
    · rw [if_neg hp] at h
      exact h

theorem mem_of_mem_pyStrip {l : List Char} {c : Char} (h : c ∈ pyStrip l) : c ∈ l := by
  simp only [pyStrip] at h
  have h1 := List.mem_reverse.mp h
  have h2 := mem_of_mem_dropWhile h1
  have h3 := List.mem_reverse.mp h2
  exact mem_of_mem_dropWhile h3

/-! ## Lemmas: the assignment-line parser -/

theorem space_not_word {c : Char} (h : isPySpace c = true) : isWordChar c = false := by
  simp only [isPySpace, Bool.or_eq_true, decide_eq_true_eq] at h
  rcases h with ((((h | h) | h) | h) | h) | h <;> (subst h; decide)

theorem word_char_facts {c : Char} (h : isWordChar c = true) :
    c ≠ '\n' ∧ c ≠ '\r' ∧ c ≠ '=' ∧ c ≠ '"' ∧ c ≠ '\'' ∧ isPySpace c = false := by
  refine ⟨?_, ?_, ?_, ?_, ?_, ?_⟩
  · intro hq; subst hq; exact absurd h (by decide)
  · intro hq; subst hq; exact absurd h (by decide)
  · intro hq; subst hq; exact absurd h (by decide)
  · intro hq; subst hq; exact absurd h (by decide)
  · intro hq; subst hq; exact absurd h (by decide)
  · by_cases hs : isPySpace c = true
    · rw [space_not_word hs] at h
      exact absurd h (by decide)
    · simpa using hs

theorem takeWhile_append_stop {p : Char → Bool} {V rest : List Char} {d : Char}
    (hV : ∀ c ∈ V, p c = true) (hd : p d = false) :
    (V ++ d :: rest).takeWhile p = V := by
  induction V with
  | nil => simp [List.takeWhile_cons, hd]
  | cons a t ih =>
    have ha := hV a (List.mem_cons_self _ _)
    simp only [List.cons_append, List.takeWhile_cons, ha, if_true]
    rw [ih (fun c hc => hV c (List.mem_cons_of_mem _ hc))]

theorem dropWhile_append_stop {p : Char → Bool} {V rest : List Char} {d : Char}
    (hV : ∀ c ∈ V, p c = true) (hd : p d = false) :
    (V ++ d :: rest).dropWhile p = d :: rest := by
  induction V with
  | nil => simp [List.dropWhile_cons, hd]
  | cons a t ih =>
    have ha := hV a (List.mem_cons_self _ _)
    simp only [List.cons_append, List.dropWhile_cons, ha, if_true]
    exact ih (fun c hc => hV c (List.mem_cons_of_mem _ hc))

theorem dropWhile_of_head_false {p : Char → Bool} {l : List Char} {c : Char}
    (h : l.head? = some c) (hc : p c = false) : l.dropWhile p = l := by
  cases l with
  | nil => simp at h
  | cons a t =>
    simp only [List.head?_cons, Option.some.injEq] at h
    subst h
    rw [List.dropWhile_cons, if_neg (by simp [hc])]

theorem pyStrip_no_strip {l : List Char} {c d : Char}
    (hh : l.head? = some c) (hc : isPySpace c = false)
    (hl : l.getLast? = some d) (hd : isPySpace d = false) : pyStrip l = l := by
  simp only [pyStrip]
  rw [dropWhile_of_head_false hh hc]
  rw [dropWhile_of_head_false (by rw [List.head?_reverse]; exact hl) hd]
  exact List.reverse_reverse l

theorem canonicalLine_assoc (V v : List Char) :
    canonicalLine V v = V ++ ('=' :: '"' :: (v ++ ['"'])) := by
  simp [canonicalLine]

theorem canonicalLine_getLast? (V v : List Char) :
    (canonicalLine V v).getLast? = some '"' := by
  simp only [canonicalLine]
  rw [show V ++ '=' :: '"' :: v ++ ['"'] = (V ++ '=' :: '"' :: v) ++ ['"'] from by simp]
  rw [List.getLast?_append]
  rfl

theorem canonicalLine_head? {V : List Char} (hne : V ≠ []) (v : List Char) :
    ∃ a, (canonicalLine V v).head? = some a ∧ a ∈ V := by
  cases V with
  | nil => exact absurd rfl hne
  | cons a t =>
    refine ⟨a, ?_, List.mem_cons_self _ _⟩
    simp [canonicalLine]

theorem pyStrip_canonical {V : List Char} (hV : goodName V) (v : List Char) :
    pyStrip (canonicalLine V v) = canonicalLine V v := by
  obtain ⟨hne, hw⟩ := hV
  obtain ⟨a, hh, ha⟩ := canonicalLine_head? hne v
  exact pyStrip_no_strip hh (word_char_facts (hw a ha)).2.2.2.2.2
    (canonicalLine_getLast? V v) (by decide)

theorem parseAssign_canonical {V : List Char} (hV : goodName V) (v : List Char) :
    parseAssign (canonicalLine V v) = some (V, v) := by
  obtain ⟨hne, hw⟩ := hV
  have heqw : isWordChar '=' = false := by decide
  have htake : (canonicalLine V v).takeWhile isWordChar = V := by
    rw [canonicalLine_assoc]
    exact @takeWhile_append_stop isWordChar V ('"' :: (v ++ ['"'])) '=' hw heqw
  have hdrop : (canonicalLine V v).dropWhile isWordChar = '=' :: '"' :: (v ++ ['"']) := by
    rw [canonicalLine_assoc]
    exact @dropWhile_append_stop isWordChar V ('"' :: (v ++ ['"'])) '=' hw heqw
  have hlast : (v ++ ['"']).getLast? = some '"' := by
    rw [List.getLast?_append]; rfl
  have hnb : V.isEmpty = false := by
    cases V with
    | nil => exact absurd rfl hne
    | cons a t => rfl
  simp only [parseAssign, pyStrip_canonical ⟨hne, hw⟩ v, htake, hdrop, hlast, hnb,
    isQuote, List.dropLast_concat]
  split
  · rfl
  · rename_i hcond
    simp at hcond

theorem dropWhile_append_keep {p : Char → Bool} {a b : List Char} {d : Char}
    (hd : p d = false) : (a ++ d :: b).dropWhile p = a.dropWhile p ++ d :: b := by
  induction a with
  | nil => simp [List.dropWhile_cons, hd]
  | cons c t ih =>
    by_cases hc : p c = true
    · simp only [List.cons_append, List.dropWhile_cons, hc, if_true]
      exact ih
    · simp only [List.cons_append, List.dropWhile_cons, hc, if_false]
      simp only [Bool.not_eq_true] at hc
      simp [hc]

theorem pyStrip_of_prefix {V rest : List Char} (hV : goodName V) :
    pyStrip (V ++ '=' :: rest) =
      V ++ '=' :: (rest.reverse.dropWhile isPySpace).reverse := by
  obtain ⟨hne, hw⟩ := hV
  have hs : isPySpace '=' = false := by decide
  have hlead : (V ++ '=' :: rest).dropWhile isPySpace = V ++ '=' :: rest := by
    cases hVe : V with
    | nil => exact absurd hVe hne
    | cons a t =>
      apply dropWhile_of_head_false
      · rfl
      · exact (word_char_facts (hw a (by rw [hVe]; exact List.mem_cons_self _ _))).2.2.2.2.2
  simp only [pyStrip, hlead]
  have hrev : (V ++ '=' :: rest).reverse = rest.reverse ++ '=' :: V.reverse := by
    rw [List.reverse_append, List.reverse_cons, List.append_assoc]
    simp
  rw [hrev, dropWhile_append_keep hs]
  rw [List.reverse_append, List.reverse_cons]
  simp

theorem parseAssign_name {l : List Char} {p : List Char × List Char}
    (h : parseAssign l = some p) : p.1 = (pyStrip l).takeWhile isWordChar := by
  simp only [parseAssign] at h
  split at h
  · split at h
    · split at h
      · injection h with h1
        subst h1
        rfl
      · exact absurd h (by simp)
    · exact absurd h (by simp)
  · exact absurd h (by simp)

theorem parseAssign_of_starts {V l : List Char} (hV : goodName V)
    (hp : (V ++ ['=']).isPrefixOf l = true) {p : List Char × List Char}
    (hparse : parseAssign l = some p) : p.1 = V := by
  obtain ⟨t, ht⟩ := List.isPrefixOf_iff_prefix.mp hp
  have hl : l = V ++ '=' :: t := by
    rw [← ht]
    simp
  rw [parseAssign_name hparse, hl, pyStrip_of_prefix hV]
  exact @takeWhile_append_stop isWordChar V ((t.reverse.dropWhile isPySpace).reverse) '='
    hV.2 (by decide)

/-! ## Lemmas: the variable dictionary -/

theorem parseAssign_nil : parseAssign [] = none := rfl

theorem parseFor_nil (W : List Char) : parseFor W [] = none := rfl

theorem varsStep_apply (d : Vars) (l W : List Char) :
    varsStep d l W = (parseFor W l).or (d W) := by
  cases hq : parseAssign l with
  | none => simp [varsStep, parseFor, hq]
  | some p =>
    simp only [varsStep, parseFor, hq]
    by_cases hW : W = p.1
    · rw [if_pos hW, if_pos hW.symm]
      rfl
    · rw [if_neg hW, if_neg (fun hq2 => hW hq2.symm)]
      rfl

theorem foldl_varsStep_eq (lines : List (List Char)) (d : Vars) (W : List Char) :
    (lines.foldl varsStep d) W = (List.findSome? (parseFor W) lines.reverse).or (d W) := by
  induction lines generalizing d with
  | nil => rfl
  | cons l ls ih =>
    simp only [List.foldl_cons, List.reverse_cons]
    rw [ih, List.findSome?_append, Option.or_assoc]
    congr 1
    rw [varsStep_apply]
    simp only [List.findSome?_cons]
    cases parseFor W l <;> rfl

theorem get_script_vars_eq (content W : List Char) :
    get_script_vars content W = lastAssign W (pySplitlines content) := by
  simp only [get_script_vars, lastAssign]
  rw [foldl_varsStep_eq]
  cases List.findSome? (parseFor W) (pySplitlines content).reverse <;> rfl

theorem lastAssign_stripTrailEmpty (W : List Char) (ls : List (List Char)) :
    lastAssign W (stripTrailEmpty ls) = lastAssign W ls := by
  simp only [stripTrailEmpty]
  by_cases h : ls.getLast? = some ([] : List Char)
  · rw [if_pos h]
    have hne : ls ≠ [] := by
      intro hq
      rw [hq] at h
      simp at h
    have hdec : ls = ls.dropLast ++ [[]] := by
      conv_lhs => rw [← List.dropLast_append_getLast hne]
      congr 1
      have := List.getLast?_eq_getLast ls hne
      rw [h] at this
      injection this with h2
      rw [h2]
    simp only [lastAssign]
    conv_rhs => rw [hdec]
    rw [List.reverse_append]
    simp [List.findSome?_cons, parseFor_nil]
  · rw [if_neg h]

theorem pySplitlines_eq_splitNl {s : List Char} (h : '\r' ∉ s) :
    pySplitlines s = stripTrailEmpty (splitNl s) := by
  conv_lhs => rw [← joinNl_splitNl s]
  exact pySplitlines_joinNl (splitSep_ne_nil _ _)
    (fun l hl => ⟨sep_not_mem_splitSep hl, fun hc => h (mem_of_mem_splitSep hl hc)⟩)

theorem parseFor_canonical {V : List Char} (hV : goodName V) (W v : List Char) :
    parseFor W (canonicalLine V v) = if V = W then some v else none := by
  simp only [parseFor, parseAssign_canonical hV v]

theorem parseFor_replaceLine_other {V W v l : List Char} (hV : goodName V) (hne : V ≠ W) :
    parseFor W (replaceLine V v l) = parseFor W l := by
  simp only [replaceLine]
  split
  · rename_i hp
    rw [parseFor_canonical hV, if_neg hne]
    cases hq : parseAssign l with
    | none => simp [parseFor, hq]
    | some p =>
      simp only [parseFor, hq]
      rw [parseAssign_of_starts hV hp hq, if_neg (fun h2 => hne h2)]
  · rfl

theorem findSome?_parseFor_map_other {V W v : List Char} (hV : goodName V) (hne : V ≠ W)
    (rs : List (List Char)) :
    List.findSome? (parseFor W) (rs.map (replaceLine V v)) =
      List.findSome? (parseFor W) rs := by
  induction rs with
  | nil => rfl
  | cons r rest ih =>
    simp only [List.map_cons, List.findSome?_cons]
    rw [parseFor_replaceLine_other hV hne, ih]

theorem findSome?_parseFor_map_self {V v : List Char} (hV : goodName V)
    (rs : List (List Char)) :
    List.findSome? (parseFor V) (rs.map (replaceLine V v)) = some v ∨
    List.findSome? (parseFor V) (rs.map (replaceLine V v)) =
      List.findSome? (parseFor V) rs := by
  induction rs with
  | nil => right; rfl
  | cons r rest ih =>
    simp only [List.map_cons, List.findSome?_cons]
    by_cases hp : (V ++ ['=']).isPrefixOf r = true
    · left
      have : replaceLine V v r = canonicalLine V v := by simp [replaceLine, hp]
      rw [this, parseFor_canonical hV, if_pos rfl]
    · have hr : replaceLine V v r = r := by
        simp only [replaceLine]
        rw [if_neg]
        simp [hp]
      rw [hr]
      cases hq : parseFor V r with
      | some w => right; rfl
      | none => exact ih

/-! ## Lemmas: update_script_content -/

theorem mem_canonicalLine {c : Char} {V v : List Char}
    (h : c ∈ canonicalLine V v) : c ∈ V ∨ c = '=' ∨ c = '"' ∨ c ∈ v := by
  rw [canonicalLine_assoc] at h
  rcases List.mem_append.mp h with h1 | h1
  · exact Or.inl h1
  · rcases List.mem_cons.mp h1 with h2 | h2
    · exact Or.inr (Or.inl h2)
    · rcases List.mem_cons.mp h2 with h3 | h3
      · exact Or.inr (Or.inr (Or.inl h3))
      · rcases List.mem_append.mp h3 with h4 | h4
        · exact Or.inr (Or.inr (Or.inr h4))
        · rcases List.mem_cons.mp h4 with h5 | h5
          · exact Or.inr (Or.inr (Or.inl h5))
          · simp at h5

theorem noNlCr_canonicalLine {V v : List Char} (hV : goodName V)
    (hvn : '\n' ∉ v) (hvr : '\r' ∉ v) : noNlCr (canonicalLine V v) := by
  constructor
  · intro h
    rcases mem_canonicalLine h with h1 | h1 | h1 | h1
    · exact (word_char_facts (hV.2 _ h1)).1 rfl
    · exact absurd h1 (by decide)
    · exact absurd h1 (by decide)
    · exact hvn h1
  · intro h
    rcases mem_canonicalLine h with h1 | h1 | h1 | h1
    · exact (word_char_facts (hV.2 _ h1)).2.1 rfl
    · exact absurd h1 (by decide)
    · exact absurd h1 (by decide)
    · exact hvr h1

theorem splitNl_norm_clean {f l : List Char} (h : l ∈ splitNl (normNewlines f)) :
    noNlCr l :=
  ⟨sep_not_mem_splitSep h,
   fun hc => cr_not_mem_normNewlines f (mem_of_mem_splitSep h hc)⟩

theorem noNlCr_replaceLine {V v l : List Char} (hV : goodName V)
    (hvn : '\n' ∉ v) (hvr : '\r' ∉ v) (hl : noNlCr l) :
    noNlCr (replaceLine V v l) := by
  simp only [replaceLine]
  split
  · exact noNlCr_canonicalLine hV hvn hvr
  · exact hl

theorem splitNl_update (f V v : List Char) (hV : goodName V)
    (hvn : '\n' ∉ v) (hvr : '\r' ∉ v) :
    splitNl (update_script_content f V v) =
      (splitNl (normNewlines f)).map (replaceLine V v) := by
  simp only [update_script_content]
  apply splitNl_joinNl
  · simp only [ne_eq, List.map_eq_nil_iff]
    exact splitSep_ne_nil _ _
  · intro l hl
    obtain ⟨m, hm, hrep⟩ := List.mem_map.mp hl
    rw [← hrep]
    exact (noNlCr_replaceLine hV hvn hvr (splitNl_norm_clean hm)).1

theorem cr_not_mem_replaceLine {V v l : List Char} (hV : goodName V)
    (hvr : '\r' ∉ v) (hl : '\r' ∉ l) : '\r' ∉ replaceLine V v l := by
  simp only [replaceLine]
  split
  · intro h
    rcases mem_canonicalLine h with h1 | h1 | h1 | h1
    · exact (word_char_facts (hV.2 _ h1)).2.1 rfl
    · exact absurd h1 (by decide)
    · exact absurd h1 (by decide)
    · exact hvr h1
  · exact hl

theorem cr_not_mem_update {f V v : List Char} (hV : goodName V) (hvr : '\r' ∉ v) :
    '\r' ∉ update_script_content f V v := by
  intro h
  simp only [update_script_content] at h
  rcases mem_joinNl h with h1 | ⟨l, hl, hcl⟩
  · exact absurd h1 (by decide)
  · obtain ⟨m, hm, hrep⟩ := List.mem_map.mp hl
    rw [← hrep] at hcl
    exact cr_not_mem_replaceLine hV hvr (splitNl_norm_clean hm).2 hcl

theorem normNewlines_update (f V v : List Char) (hV : goodName V) (hvr : '\r' ∉ v) :
    normNewlines (update_script_content f V v) = update_script_content f V v :=
  normNewlines_of_no_cr (cr_not_mem_update hV hvr)

theorem isPrefixOf_canonical (V v : List Char) :
    (V ++ ['=']).isPrefixOf (canonicalLine V v) = true := by
  rw [List.isPrefixOf_iff_prefix]
  refine ⟨'"' :: (v ++ ['"']), ?_⟩
  rw [canonicalLine_assoc]
  simp

theorem prefix_name_unique {V W rest : List Char} (hV : goodName V) (hW : goodName W)
    (h : (W ++ ['=']).isPrefixOf (V ++ '=' :: rest) = true) : W = V := by
  obtain ⟨t, ht⟩ := List.isPrefixOf_iff_prefix.mp h
  have h1 : W ++ '=' :: t = V ++ '=' :: rest := by
    rw [← ht]
    simp
  have heqw : isWordChar '=' = false := by decide
  have h2 := congrArg (List.takeWhile isWordChar) h1
  rw [@takeWhile_append_stop isWordChar W t '=' hW.2 heqw,
    @takeWhile_append_stop isWordChar V rest '=' hV.2 heqw] at h2
  exact h2

theorem isPrefixOf_canonical_other {V W v : List Char} (hV : goodName V)
    (hW : goodName W) (hne : W ≠ V) :
    (W ++ ['=']).isPrefixOf (canonicalLine V v) = false := by
  by_cases h : (W ++ ['=']).isPrefixOf (canonicalLine V v) = true
  · rw [canonicalLine_assoc] at h
    rw [show V ++ ('=' :: '"' :: (v ++ ['"'])) = V ++ '=' :: ('"' :: (v ++ ['"'])) from rfl] at h
    exact absurd (prefix_name_unique hV hW h) hne
  · simp only [Bool.not_eq_true] at h
    exact h

theorem replaceLine_canonical_self (V v : List Char) :
    replaceLine V v (canonicalLine V v) = canonicalLine V v := by
  simp [replaceLine, isPrefixOf_canonical]

theorem replaceLine_canonical_other {V W v w : List Char} (hV : goodName V)
    (hW : goodName W) (hne : W ≠ V) :
    replaceLine W w (canonicalLine V v) = canonicalLine V v := by
  simp [replaceLine, isPrefixOf_canonical_other hV hW hne]

theorem replaceLine_idem (V v l : List Char) :
    replaceLine V v (replaceLine V v l) = replaceLine V v l := by
  by_cases hp : (V ++ ['=']).isPrefixOf l = true
  · rw [show replaceLine V v l = canonicalLine V v from by simp [replaceLine, hp]]
    exact replaceLine_canonical_self V v
  · simp [replaceLine, hp]

theorem vars_update_other (f : List Char) {V W : List Char} (v : List Char)
    (hV : goodName V) (hne : V ≠ W) (hvn : '\n' ∉ v) (hvr : '\r' ∉ v) :
    get_script_vars (normNewlines (update_script_content f V v)) W =
      get_script_vars (normNewlines f) W := by
  rw [normNewlines_update f V v hV hvr, get_script_vars_eq, get_script_vars_eq]
  have hclean : ∀ l ∈ (splitNl (normNewlines f)).map (replaceLine V v), noNlCr l := by
    intro l hl
    obtain ⟨m, hm, hrep⟩ := List.mem_map.mp hl
    rw [← hrep]
    exact noNlCr_replaceLine hV hvn hvr (splitNl_norm_clean hm)
  have hmapne : (splitNl (normNewlines f)).map (replaceLine V v) ≠ [] := by
    simp only [ne_eq, List.map_eq_nil_iff]
    exact splitSep_ne_nil _ _
  rw [show update_script_content f V v =
      joinNl ((splitNl (normNewlines f)).map (replaceLine V v)) from rfl]
  rw [pySplitlines_joinNl hmapne hclean, lastAssign_stripTrailEmpty]
  rw [pySplitlines_eq_splitNl (cr_not_mem_normNewlines f), lastAssign_stripTrailEmpty]
  simp only [lastAssign]
  rw [← List.map_reverse]
  exact findSome?_parseFor_map_other hV hne _

theorem vars_update_self (f : List Char) {V : List Char} (v : List Char)
    (hV : goodName V) (hvn : '\n' ∉ v) (hvr : '\r' ∉ v) :
    get_script_vars (normNewlines (update_script_content f V v)) V = some v ∨
    get_script_vars (normNewlines (update_script_content f V v)) V =
      get_script_vars (normNewlines f) V := by
  rw [normNewlines_update f V v hV hvr, get_script_vars_eq, get_script_vars_eq]
  have hclean : ∀ l ∈ (splitNl (normNewlines f)).map (replaceLine V v), noNlCr l := by
    intro l hl
    obtain ⟨m, hm, hrep⟩ := List.mem_map.mp hl
    rw [← hrep]
    exact noNlCr_replaceLine hV hvn hvr (splitNl_norm_clean hm)
  have hmapne : (splitNl (normNewlines f)).map (replaceLine V v) ≠ [] := by
    simp only [ne_eq, List.map_eq_nil_iff]
    exact splitSep_ne_nil _ _
  rw [show update_script_content f V v =
      joinNl ((splitNl (normNewlines f)).map (replaceLine V v)) from rfl]
  rw [pySplitlines_joinNl hmapne hclean, lastAssign_stripTrailEmpty]
  rw [pySplitlines_eq_splitNl (cr_not_mem_normNewlines f), lastAssign_stripTrailEmpty]
  simp only [lastAssign]
  rw [← List.map_reverse]
  exact findSome?_parseFor_map_self hV _

theorem update_eq_norm_of_fixed {f V v : List Char}
    (h : ∀ l ∈ splitNl (normNewlines f), replaceLine V v l = l) :
    update_script_content f V v = normNewlines f := by
  simp only [update_script_content]
  rw [List.map_congr_left h]
  rw [show List.map (fun a : List Char => a) (splitNl (normNewlines f)) =
      splitNl (normNewlines f) from List.map_id _]
  exact joinNl_splitNl (normNewlines f)

/-! ## Lemmas: full characterization of the line parser -/

theorem parseAssign_eq_some_iff (l n v : List Char) :
    parseAssign l = some (n, v) ↔
      ∃ q1 q2, isQuote q1 = true ∧ isQuote q2 = true ∧ n ≠ [] ∧
        (∀ c ∈ n, isWordChar c = true) ∧
        pyStrip l = n ++ '=' :: q1 :: (v ++ [q2]) := by
  constructor
  · intro h
    simp only [parseAssign] at h
    split at h
    · rename_i d q1 rest2 heq
      split at h
      · rename_i q2 hlast
        split at h
        · rename_i hcond
          simp only [Bool.and_eq_true, Bool.not_eq_true'] at hcond
          injection h with h1
          injection h1 with hn hv
          refine ⟨q1, q2, hcond.1.2, hcond.2, ?_, ?_, ?_⟩
          · rw [← hn]
            intro hq
            rw [hq] at hcond
            exact absurd hcond.1.1 (by decide)
          · intro c hc
            rw [← hn] at hc
            exact List.mem_takeWhile_imp hc
          · have hrne : rest2 ≠ [] := by
              intro hq
              rw [hq] at hlast
              simp at hlast
            have hgl := List.getLast?_eq_getLast rest2 hrne
            rw [hlast] at hgl
            injection hgl with hgl2
            have hrdec : rest2 = v ++ [q2] := by
              conv_lhs => rw [← List.dropLast_append_getLast hrne]
              rw [hv, ← hgl2]
            calc pyStrip l
                = (pyStrip l).takeWhile isWordChar ++ (pyStrip l).dropWhile isWordChar :=
                  (List.takeWhile_append_dropWhile isWordChar (pyStrip l)).symm
              _ = n ++ '=' :: q1 :: (v ++ [q2]) := by rw [hn, heq, hrdec]
        · exact absurd h (by simp)
      · exact absurd h (by simp)
    · exact absurd h (by simp)
  · rintro ⟨q1, q2, hq1, hq2, hne, hw, hs⟩
    have heqw : isWordChar '=' = false := by decide
    have htake : (pyStrip l).takeWhile isWordChar = n := by
      rw [hs]
      exact @takeWhile_append_stop isWordChar n (q1 :: (v ++ [q2])) '=' hw heqw
    have hdrop : (pyStrip l).dropWhile isWordChar = '=' :: q1 :: (v ++ [q2]) := by
      rw [hs]
      exact @dropWhile_append_stop isWordChar n (q1 :: (v ++ [q2])) '=' hw heqw
    have hlast : (v ++ [q2]).getLast? = some q2 := by
      rw [List.getLast?_append]
      rfl
    have hnb : n.isEmpty = false := by
      cases n with
      | nil => exact absurd rfl hne
      | cons a t => rfl
    simp only [parseAssign, htake, hdrop, hlast, hnb, hq1, hq2, List.dropLast_concat]
    rfl

theorem goodName_tables : ∀ s ∈ suffixes,
    goodName (repoVar s) ∧ goodName (commitVar s) ∧ goodName (revVar s) ∧
    goodName (hgrevVar s) ∧ goodName (branchVar s) ∧ goodName (tagfilterVar s) := by
  decide

theorem name_disjoint_tables : ∀ s ∈ suffixes, ∀ t ∈ suffixes,
    revVar s ≠ repoVar t ∧ revVar s ≠ branchVar t ∧ revVar s ≠ tagfilterVar t ∧
    hgrevVar s ≠ repoVar t ∧ hgrevVar s ≠ branchVar t ∧ hgrevVar s ≠ tagfilterVar t ∧
    commitVar s ≠ repoVar t ∧ commitVar s ≠ branchVar t ∧ commitVar s ≠ tagfilterVar t ∧
    revVar s ≠ hgrevVar t ∧ revVar s ≠ commitVar t ∧ hgrevVar s ≠ commitVar t ∧
    revVar s ≠ str "SCRIPT_SKIP" ∧ hgrevVar s ≠ str "SCRIPT_SKIP" ∧
    commitVar s ≠ str "SCRIPT_SKIP" ∧
    (revVar s = revVar t → s = t) ∧ (hgrevVar s = hgrevVar t → s = t) ∧
    (commitVar s = commitVar t → s = t) := by
  decide

theorem goodName_skip : goodName (str "SCRIPT_SKIP") := by decide

/-! ## Lemmas: checker results are whitespace-free tokens -/

theorem mem_of_head?_eq {α : Type} {l : List α} {a : α} (h : l.head? = some a) :
    a ∈ l := by
  cases l with
  | nil => simp at h
  | cons b t =>
    simp only [List.head?_cons, Option.some.injEq] at h
    rw [← h]
    exact List.mem_cons_self _ _

theorem mem_of_getLast?_eq {α : Type} {l : List α} {a : α} (h : l.getLast? = some a) :
    a ∈ l := by
  cases hl : l with
  | nil =>
    rw [hl] at h
    simp at h
  | cons b t =>
    rw [← hl]
    have hne : l ≠ [] := by rw [hl]; simp
    have := List.getLast?_eq_getLast l hne
    rw [h] at this
    injection this with h2
    rw [h2]
    exact List.getLast_mem hne

theorem tokenSafe_of_no_space {v : List Char} (h : ∀ c ∈ v, isPySpace c = false) :
    tokenSafe v := by
  constructor
  · intro hm
    have := h _ hm
    exact absurd this (by decide)
  · intro hm
    have := h _ hm
    exact absurd this (by decide)

theorem tokenSafe_pyStrip_of {v : List Char} (h : tokenSafe v) :
    tokenSafe (pyStrip v) :=
  ⟨fun hm => h.1 (mem_of_mem_pyStrip hm), fun hm => h.2 (mem_of_mem_pyStrip hm)⟩

theorem tokenSafe_getLast_token (l : List Char) :
    tokenSafe (pyStrip (((pySplit l).getLast?).getD [])) := by
  cases hg : (pySplit l).getLast? with
  | none => exact ⟨by simp [pyStrip], by simp [pyStrip]⟩
  | some t =>
    simp only [Option.getD_some]
    exact tokenSafe_pyStrip_of
      (tokenSafe_of_no_space (pySplit_no_space (mem_of_getLast?_eq hg)))

theorem tokenSafe_head_token (l : List Char) :
    tokenSafe (((pySplit l).head?).getD []) := by
  cases hg : (pySplit l).head? with
  | none => exact ⟨by simp, by simp⟩
  | some t =>
    simp only [Option.getD_some]
    exact tokenSafe_of_no_space (pySplit_no_space (mem_of_head?_eq hg))

theorem svnFindRevision_safe {lines : List (List Char)} {v : List Char}
    (h : svnFindRevision lines = some v) : tokenSafe v := by
  induction lines with
  | nil => simp [svnFindRevision] at h
  | cons l ls ih =>
    simp only [svnFindRevision] at h
    split at h
    · injection h with h1
      rw [← h1]
      exact tokenSafe_getLast_token l
    · exact ih h

theorem check_svn_value_safe {env : SvnEnv} {repo cur v : List Char}
    (h : check_svn_repo env repo cur = .ok (some v)) : tokenSafe v := by
  simp only [check_svn_repo] at h
  split at h
  · exact absurd h (by simp)
  · split at h
    · exact absurd h (by simp)
    · split at h
      · injection h with h1
        exact svnFindRevision_safe h1
      · exact absurd h (by simp)

theorem hgFindChangeset_safe {lines : List (List Char)} {v : List Char}
    (hclean : ∀ l ∈ lines, noNlCr l)
    (h : hgFindChangeset lines = .ok (some v)) : tokenSafe v := by
  induction lines with
  | nil => simp [hgFindChangeset] at h
  | cons l ls ih =>
    simp only [hgFindChangeset] at h
    split at h
    · split at h
      · rename_i t ht
        injection h with h1
        injection h1 with h2
        rw [← h2]
        have hlc : noNlCr l := hclean l (List.mem_cons_self _ _)
        have htc : noNlCr t :=
          ⟨fun hm => hlc.1 (mem_of_mem_splitSep (List.get?_mem ht) hm),
           fun hm => hlc.2 (mem_of_mem_splitSep (List.get?_mem ht) hm)⟩
        exact tokenSafe_pyStrip_of htc
      · exact absurd h (by simp)
    · exact ih (fun x hx => hclean x (List.mem_cons_of_mem _ hx)) h

theorem check_hg_value_safe {env : HgEnv} {repo cur v : List Char}
    (h : check_hg_repo env repo cur = .ok (some v)) : tokenSafe v := by
  simp only [check_hg_repo] at h
  split at h
  · exact absurd h (by simp)
  · split at h
    · split at h
      · exact absurd h (by simp)
      · split at h
        · exact hgFindChangeset_safe (fun l hl => pySplitlines_clean hl) h
        · exact absurd h (by simp)
    · exact absurd h (by simp)

theorem check_git_value_safe {env : GitEnv} {repo cur : List Char}
    {branch tagfilter : Option (List Char)} {v : List Char}
    (h : check_git_repo env repo cur branch tagfilter = .ok (some v)) : tokenSafe v := by
  simp only [check_git_repo] at h
  split at h
  · split at h
    · exact absurd h (by simp)
    · split at h
      · split at h
        · injection h with h1
          injection h1 with h2
          rw [← h2]
          exact tokenSafe_head_token _
        · exact absurd h (by simp)
      · exact absurd h (by simp)
  · split at h
    · exact absurd h (by simp)
    · split at h
      · split at h
        · exact absurd h (by simp)
        · split at h
          · split at h
            · injection h with h1
              injection h1 with h2
              rw [← h2]
              exact tokenSafe_head_token _
            · exact absurd h (by simp)
          · exact absurd h (by simp)
      · exact absurd h (by simp)

/-! ## Lemmas: inverting the slot decision -/

theorem branchDecision_inv_err {res : Except PyExc (Option (List Char))}
    {act : Action} {name cur : List Char} {a : Action} {e : PyExc}
    (h : branchDecision res act name cur = .checkErr a e) :
    res = .error e ∧ a = act := by
  simp only [branchDecision] at h
  split at h
  · injection h with h1 h2
    exact ⟨by rw [h2], h1.symm⟩
  · split at h
    · split at h <;> exact absurd h (by simp)
    · exact absurd h (by simp)

theorem branchDecision_inv_write {res : Except PyExc (Option (List Char))}
    {act : Action} {name cur : List Char} {a : Action} {V v : List Char}
    (h : branchDecision res act name cur = .checkWrite a V v) :
    res = .ok (some v) ∧ a = act ∧ V = name ∧ v ≠ [] ∧ v ≠ cur := by
  simp only [branchDecision] at h
  split at h
  · exact absurd h (by simp)
  · split at h
    · split at h
      · rename_i v2 hcond
        injection h with h1 h2 h3
        simp only [Bool.and_eq_true, Bool.not_eq_true', ne_eq, decide_eq_true_eq] at hcond
        subst h3
        refine ⟨rfl, h1.symm, h2.symm, ?_, ?_⟩
        · intro hq
          rw [hq] at hcond
          exact absurd hcond.1 (by decide)
        · exact hcond.2
      · exact absurd h (by simp)
    · exact absurd h (by simp)

theorem branchDecision_inv_nowrite {res : Except PyExc (Option (List Char))}
    {act : Action} {name cur : List Char} {a : Action}
    (h : branchDecision res act name cur = .checkNoWrite a) :
    a = act ∧ ∃ newO, res = .ok newO ∧
      (newO = none ∨ ∃ v, newO = some v ∧ (v = [] ∨ v = cur)) := by
  simp only [branchDecision] at h
  split at h
  · exact absurd h (by simp)
  · split at h
    · split at h
      · exact absurd h (by simp)
      · rename_i v2 hcond
        injection h with h1
        simp only [Bool.and_eq_true, Bool.not_eq_true', not_and, ne_eq,
          decide_eq_true_eq] at hcond
        refine ⟨h1.symm, some v2, rfl, Or.inr ⟨v2, rfl, ?_⟩⟩
        by_cases hv : v2 = []
        · exact Or.inl hv
        · right
          by_cases hc : v2 = cur
          · exact hc
          · exact absurd hcond (by simp [hv, hc])
    · rename_i hnone
      injection h with h1
      exact ⟨h1.symm, none, rfl, Or.inl rfl⟩

theorem slotDecision_cases (env : Env) (vars : Vars) (sfx : List Char) :
    (truthy (vars (repoVar sfx)) = false ∧ sfx.isEmpty = true ∧
      slotDecision env vars sfx = .markCheck) ∨
    (truthy (vars (repoVar sfx)) = false ∧ sfx.isEmpty = false ∧
      slotDecision env vars sfx = .stopSilent) ∨
    (truthy (vars (repoVar sfx)) = true ∧ truthy (vars (revVar sfx)) = true ∧
      slotDecision env vars sfx =
        branchDecision
          (check_svn_repo env.svn ((vars (repoVar sfx)).getD [])
            ((vars (revVar sfx)).getD []))
          (.checkSvn sfx ((vars (repoVar sfx)).getD [])) (revVar sfx)
          ((vars (revVar sfx)).getD [])) ∨
    (truthy (vars (repoVar sfx)) = true ∧ truthy (vars (revVar sfx)) = false ∧
      truthy (vars (hgrevVar sfx)) = true ∧
      slotDecision env vars sfx =
        branchDecision
          (check_hg_repo env.hg ((vars (repoVar sfx)).getD [])
            ((vars (hgrevVar sfx)).getD []))
          (.checkHg sfx ((vars (repoVar sfx)).getD [])) (hgrevVar sfx)
          ((vars (hgrevVar sfx)).getD [])) ∨
    (truthy (vars (repoVar sfx)) = true ∧ truthy (vars (revVar sfx)) = false ∧
      truthy (vars (hgrevVar sfx)) = false ∧ truthy (vars (commitVar sfx)) = true ∧
      slotDecision env vars sfx =
        branchDecision
          (check_git_repo env.git ((vars (repoVar sfx)).getD [])
            ((vars (commitVar sfx)).getD [])
            (vars (branchVar sfx)) (vars (tagfilterVar sfx)))
          (.checkGit sfx ((vars (repoVar sfx)).getD [])) (commitVar sfx)
          ((vars (commitVar sfx)).getD [])) ∨
    (truthy (vars (repoVar sfx)) = true ∧ truthy (vars (revVar sfx)) = false ∧
      truthy (vars (hgrevVar sfx)) = false ∧ truthy (vars (commitVar sfx)) = false ∧
      slotDecision env vars sfx = .markUnk) := by
  by_cases h1 : truthy (vars (repoVar sfx)) = true
  · by_cases h2 : truthy (vars (revVar sfx)) = true
    · refine Or.inr (Or.inr (Or.inl ⟨h1, h2, ?_⟩))
      simp [slotDecision, h1, h2]
    · rw [Bool.not_eq_true] at h2
      by_cases h3 : truthy (vars (hgrevVar sfx)) = true
      · refine Or.inr (Or.inr (Or.inr (Or.inl ⟨h1, h2, h3, ?_⟩)))
        simp [slotDecision, h1, h2, h3]
      · rw [Bool.not_eq_true] at h3
        by_cases h4 : truthy (vars (commitVar sfx)) = true
        · refine Or.inr (Or.inr (Or.inr (Or.inr (Or.inl ⟨h1, h2, h3, h4, ?_⟩))))
          simp [slotDecision, h1, h2, h3, h4]
        · rw [Bool.not_eq_true] at h4
          refine Or.inr (Or.inr (Or.inr (Or.inr (Or.inr ⟨h1, h2, h3, h4, ?_⟩))))
          simp [slotDecision, h1, h2, h3, h4]
  · rw [Bool.not_eq_true] at h1
    by_cases h5 : sfx.isEmpty = true
    · refine Or.inl ⟨h1, h5, ?_⟩
      simp [slotDecision, h1, h5]
    · rw [Bool.not_eq_true] at h5
      refine Or.inr (Or.inl ⟨h1, h5, ?_⟩)
      simp [slotDecision, h1, h5]

theorem slotDecision_congr {env : Env} {vars1 vars0 : Vars} {sfx : List Char}
    (h1 : vars1 (repoVar sfx) = vars0 (repoVar sfx))
    (h2 : vars1 (revVar sfx) = vars0 (revVar sfx))
    (h3 : vars1 (hgrevVar sfx) = vars0 (hgrevVar sfx))
    (h4 : vars1 (commitVar sfx) = vars0 (commitVar sfx))
    (h5 : vars1 (branchVar sfx) = vars0 (branchVar sfx))
    (h6 : vars1 (tagfilterVar sfx) = vars0 (tagfilterVar sfx)) :
    slotDecision env vars1 sfx = slotDecision env vars0 sfx := by
  simp only [slotDecision, h1, h2, h3, h4, h5, h6]

theorem branchDecision_ne_mark (res : Except PyExc (Option (List Char)))
    (act : Action) (name cur : List Char) :
    branchDecision res act name cur ≠ .markCheck ∧
    branchDecision res act name cur ≠ .stopSilent ∧
    branchDecision res act name cur ≠ .markUnk := by
  simp only [branchDecision]
  split
  · simp
  · split
    · split <;> simp
    · simp

theorem writesOf_append (a b : List Action) :
    writesOf (a ++ b) = writesOf a ++ writesOf b := by
  simp [writesOf, List.filterMap_append]

theorem processSlots_nil (env : Env) (vars : Vars) (file : List Char) :
    processSlots env vars [] file = ⟨file, [], none⟩ := rfl

theorem processSlots_cons (env : Env) (vars : Vars) (sfx file : List Char)
    (rest : List (List Char)) :
    processSlots env vars (sfx :: rest) file =
      match processOneSlot env vars sfx file with
      | .stop f a e => ⟨f, a, e⟩
      | .cont f a =>
        let r := processSlots env vars rest f
        ⟨r.file, a ++ r.actions, r.exc⟩ := rfl

theorem processSlots_actions_indep (env : Env) (vars : Vars) :
    ∀ (sfxs : List (List Char)) (f g : List Char),
    (processSlots env vars sfxs f).actions = (processSlots env vars sfxs g).actions ∧
    (processSlots env vars sfxs f).exc = (processSlots env vars sfxs g).exc := by
  intro sfxs
  induction sfxs with
  | nil => intro f g; exact ⟨rfl, rfl⟩
  | cons sfx rest ih =>
    intro f g
    rw [processSlots_cons, processSlots_cons]
    simp only [processOneSlot]
    cases hd : slotDecision env vars sfx with
    | checkWrite a n v =>
      show ([a, Action.writeVar sfx n v] ++
          (processSlots env vars rest (update_script_content f n v)).actions =
          [a, Action.writeVar sfx n v] ++
          (processSlots env vars rest (update_script_content g n v)).actions) ∧
        ((processSlots env vars rest (update_script_content f n v)).exc =
          (processSlots env vars rest (update_script_content g n v)).exc)
      refine ⟨?_, (ih (update_script_content f n v) (update_script_content g n v)).2⟩
      rw [(ih (update_script_content f n v) (update_script_content g n v)).1]
    | checkNoWrite a =>
      show ([a] ++ (processSlots env vars rest f).actions =
          [a] ++ (processSlots env vars rest g).actions) ∧
        ((processSlots env vars rest f).exc = (processSlots env vars rest g).exc)
      refine ⟨?_, (ih f g).2⟩
      rw [(ih f g).1]
    | _ => exact ⟨rfl, rfl⟩

theorem noMarkerActions_append {a b : List Action} (h : noMarkerActions (a ++ b)) :
    noMarkerActions a ∧ noMarkerActions b := by
  constructor
  · intro x hx
    exact h x (List.mem_append.mpr (Or.inl hx))
  · intro x hx
    exact h x (List.mem_append.mpr (Or.inr hx))

theorem processSlots_cons_of_branch (env : Env) (vars : Vars) (sfx : List Char)
    (rest : List (List Char)) (file : List Char)
    (res : Except PyExc (Option (List Char))) (act : Action) (name cur : List Char)
    (hd : slotDecision env vars sfx = branchDecision res act name cur)
    (hact0 : writesOf [act] = [])
    (hWS : ∀ v, res = .ok (some v) → v ≠ [] → v ≠ cur → WriteSpec env vars name v)
    (ih : ∀ f, noMarkerActions (processSlots env vars rest f).actions →
      (processSlots env vars rest f).file =
        applyWrites f (writesOf (processSlots env vars rest f).actions) ∧
      ∀ w ∈ writesOf (processSlots env vars rest f).actions, WriteSpec env vars w.1 w.2)
    (hnm : noMarkerActions (processSlots env vars (sfx :: rest) file).actions) :
    (processSlots env vars (sfx :: rest) file).file =
      applyWrites file (writesOf (processSlots env vars (sfx :: rest) file).actions) ∧
    ∀ w ∈ writesOf (processSlots env vars (sfx :: rest) file).actions,
      WriteSpec env vars w.1 w.2 := by
  rw [processSlots_cons] at hnm ⊢
  simp only [processOneSlot, hd] at hnm ⊢
  cases hb : branchDecision res act name cur with
  | markCheck => exact absurd hb (branchDecision_ne_mark res act name cur).1
  | stopSilent => exact absurd hb (branchDecision_ne_mark res act name cur).2.1
  | markUnk => exact absurd hb (branchDecision_ne_mark res act name cur).2.2
  | checkErr a e =>
    obtain ⟨hres, ha⟩ := branchDecision_inv_err hb
    constructor
    · show file = applyWrites file (writesOf [a])
      rw [ha, hact0]
      rfl
    · intro w hw
      rw [show writesOf [a] = [] from by rw [ha, hact0]] at hw
      simp at hw
  | checkWrite a V v =>
    rw [hb] at hnm
    obtain ⟨hres, ha, hV, hvne, hvcur⟩ := branchDecision_inv_write hb
    have hws : writesOf ([a, Action.writeVar sfx V v] ++
        (processSlots env vars rest (update_script_content file V v)).actions) =
        (V, v) :: writesOf (processSlots env vars rest
          (update_script_content file V v)).actions := by
      rw [writesOf_append]
      rw [show ([a, Action.writeVar sfx V v] : List Action) =
        [a] ++ [Action.writeVar sfx V v] from by simp]
      rw [writesOf_append, ha, hact0]
      rfl
    have hnm2 : noMarkerActions (processSlots env vars rest
        (update_script_content file V v)).actions :=
      (noMarkerActions_append hnm).2
    obtain ⟨ihf, ihw⟩ := ih (update_script_content file V v) hnm2
    constructor
    · show (processSlots env vars rest (update_script_content file V v)).file =
        applyWrites file (writesOf ([a, Action.writeVar sfx V v] ++
          (processSlots env vars rest (update_script_content file V v)).actions))
      rw [hws]
      exact ihf
    · intro w hw
      rw [hws] at hw
      rcases List.mem_cons.mp hw with h1 | h1
      · rw [h1]
        subst hV
        exact hWS v hres hvne hvcur
      · exact ihw w h1
  | checkNoWrite a =>
    rw [hb] at hnm
    obtain ⟨ha, _⟩ := branchDecision_inv_nowrite hb
    have hws : writesOf ([a] ++ (processSlots env vars rest file).actions) =
        writesOf (processSlots env vars rest file).actions := by
      rw [writesOf_append, ha, hact0]
      rfl
    have hnm2 : noMarkerActions (processSlots env vars rest file).actions :=
      (noMarkerActions_append hnm).2
    obtain ⟨ihf, ihw⟩ := ih file hnm2
    constructor
    · show (processSlots env vars rest file).file =
        applyWrites file (writesOf ([a] ++ (processSlots env vars rest file).actions))
      rw [hws]
      exact ihf
    · intro w hw
      rw [hws] at hw
      exact ihw w hw

theorem processSlots_decomp (env : Env) (vars : Vars) :
    ∀ (sfxs : List (List Char)), (∀ s ∈ sfxs, s ∈ suffixes) → ∀ file,
    noMarkerActions (processSlots env vars sfxs file).actions →
    (processSlots env vars sfxs file).file =
      applyWrites file (writesOf (processSlots env vars sfxs file).actions) ∧
    ∀ w ∈ writesOf (processSlots env vars sfxs file).actions,
      WriteSpec env vars w.1 w.2 := by
  intro sfxs
  induction sfxs with
  | nil =>
    intro _ file _
    refine ⟨rfl, ?_⟩
    intro w hw
    simp [processSlots_nil, writesOf] at hw
  | cons sfx rest ih =>
    intro hsub file hnm
    have hsfx : sfx ∈ suffixes := hsub sfx (List.mem_cons_self _ _)
    have hrest : ∀ s ∈ rest, s ∈ suffixes := fun s hs => hsub s (List.mem_cons_of_mem _ hs)
    rcases slotDecision_cases env vars sfx with
      ⟨hr, he, hd⟩ | ⟨hr, he, hd⟩ | ⟨hr, hv, hd⟩ | ⟨hr, hv, hh, hd⟩ |
      ⟨hr, hv, hh, hc, hd⟩ | ⟨hr, hv, hh, hc, hd⟩
    · rw [processSlots_cons] at hnm
      simp only [processOneSlot, hd] at hnm
      exact absurd (hnm Action.markCheckme (by simp)) (by simp [Action.isMarker])
    · rw [processSlots_cons] at hnm ⊢
      simp only [processOneSlot, hd] at hnm ⊢
      refine ⟨rfl, ?_⟩
      intro w hw
      simp [writesOf] at hw
    · exact processSlots_cons_of_branch env vars sfx rest file _ _ _ _ hd rfl
        (fun v hres hvne hvcur =>
          ⟨hvne, check_svn_value_safe hres, (goodName_tables sfx hsfx).2.2.1,
            sfx, hsfx, Or.inl ⟨rfl, hr, hv, hres, hvcur⟩⟩)
        (ih hrest) hnm
    · exact processSlots_cons_of_branch env vars sfx rest file _ _ _ _ hd rfl
        (fun v hres hvne hvcur =>
          ⟨hvne, check_hg_value_safe hres, (goodName_tables sfx hsfx).2.2.2.1,
            sfx, hsfx, Or.inr (Or.inl ⟨rfl, hr, hv, hh, hres, hvcur⟩)⟩)
        (ih hrest) hnm
    · exact processSlots_cons_of_branch env vars sfx rest file _ _ _ _ hd rfl
        (fun v hres hvne hvcur =>
          ⟨hvne, check_git_value_safe hres, (goodName_tables sfx hsfx).2.1,
            sfx, hsfx, Or.inr (Or.inr ⟨rfl, hr, hv, hh, hc, hres, hvcur⟩)⟩)
        (ih hrest) hnm
    · rw [processSlots_cons] at hnm
      simp only [processOneSlot, hd] at hnm
      exact absurd (hnm (Action.markUnknown sfx) (by simp)) (by simp [Action.isMarker])

/-! ## Lemmas: variable values across a sequence of rewrites -/

theorem applyWrites_nil (f : List Char) : applyWrites f [] = f := rfl

theorem applyWrites_cons (f : List Char) (w : List Char × List Char)
    (ws : List (List Char × List Char)) :
    applyWrites f (w :: ws) = applyWrites (update_script_content f w.1 w.2) ws := rfl

theorem applyWrites_vars_other (ws : List (List Char × List Char))
    (hgood : ∀ w ∈ ws, goodName w.1 ∧ tokenSafe w.2) :
    ∀ (f W : List Char), goodName W → (∀ v, (W, v) ∉ ws) →
    get_script_vars (normNewlines (applyWrites f ws)) W =
      get_script_vars (normNewlines f) W := by
  induction ws with
  | nil => intro f W _ _; rfl
  | cons w ws' ih =>
    intro f W hW hnotin
    rw [applyWrites_cons]
    have hw := hgood w (List.mem_cons_self _ _)
    have hne : w.1 ≠ W := by
      intro hq
      exact hnotin w.2 (by rw [← hq]; exact List.mem_cons_self _ _)
    rw [ih (fun x hx => hgood x (List.mem_cons_of_mem _ hx))
      (update_script_content f w.1 w.2) W hW
      (fun v hv => hnotin v (List.mem_cons_of_mem _ hv))]
    exact vars_update_other f w.2 hw.1 hne hw.2.1 hw.2.2

theorem applyWrites_vars_self (ws : List (List Char × List Char))
    (hgood : ∀ w ∈ ws, goodName w.1 ∧ tokenSafe w.2) :
    ∀ (f V v : List Char), (V, v) ∈ ws → (∀ v', (V, v') ∈ ws → v' = v) →
    get_script_vars (normNewlines (applyWrites f ws)) V = some v ∨
    get_script_vars (normNewlines (applyWrites f ws)) V =
      get_script_vars (normNewlines f) V := by
  induction ws with
  | nil => intro f V v hmem; simp at hmem
  | cons w ws' ih =>
    intro f V v hmem huniq
    obtain ⟨W0, v0⟩ := w
    have hgood' : ∀ x ∈ ws', goodName x.1 ∧ tokenSafe x.2 :=
      fun x hx => hgood x (List.mem_cons_of_mem _ hx)
    have hgw := hgood (W0, v0) (List.mem_cons_self _ _)
    rw [applyWrites_cons]
    by_cases hWV : W0 = V
    · subst hWV
      have hv0 : v0 = v := huniq v0 (List.mem_cons_self _ _)
      subst hv0
      by_cases hmem' : (W0, v0) ∈ ws'
      · rcases ih hgood' (update_script_content f W0 v0) W0 v0 hmem'
          (fun v' hv' => huniq v' (List.mem_cons_of_mem _ hv')) with h1 | h1
        · exact Or.inl h1
        · rcases vars_update_self f v0 hgw.1 hgw.2.1 hgw.2.2 with h2 | h2
          · exact Or.inl (h1.trans h2)
          · exact Or.inr (h1.trans h2)
      · have hnotin : ∀ v', (W0, v') ∉ ws' := by
          intro v' hv'
          have := huniq v' (List.mem_cons_of_mem _ hv')
          rw [this] at hv'
          exact hmem' hv'
        rw [applyWrites_vars_other ws' hgood' (update_script_content f W0 v0) W0
          hgw.1 hnotin]
        exact vars_update_self f v0 hgw.1 hgw.2.1 hgw.2.2
    · have hmem2 : (V, v) ∈ ws' := by
        rcases List.mem_cons.mp hmem with h1 | h1
        · injection h1 with h2 h3
          exact absurd h2.symm hWV
        · exact h1
      rcases ih hgood' (update_script_content f W0 v0) V v hmem2
        (fun v' hv' => huniq v' (List.mem_cons_of_mem _ hv')) with h1 | h1
      · exact Or.inl h1
      · rw [h1]
        exact Or.inr (vars_update_other f v0 hgw.1 hWV hgw.2.1 hgw.2.2)

/-! ## Lemmas: rewritten lines stay canonical, making rewrites idempotent -/

theorem linesCanonical_map_self (V v : List Char) (L : List (List Char)) :
    linesCanonical V v (L.map (replaceLine V v)) := by
  intro l hl hp
  obtain ⟨m, hm, hrep⟩ := List.mem_map.mp hl
  by_cases hmp : (V ++ ['=']).isPrefixOf m = true
  · rw [← hrep]
    simp [replaceLine, hmp]
  · rw [← hrep] at hp ⊢
    simp only [replaceLine] at hp ⊢
    rw [if_neg (by simp [hmp])] at hp
    exact absurd hp hmp

theorem linesCanonical_map_other {V v W w : List Char} (hV : goodName V)
    (hW : goodName W) (hne : W ≠ V) {L : List (List Char)}
    (h : linesCanonical V v L) :
    linesCanonical V v (L.map (replaceLine W w)) := by
  intro l hl hp
  obtain ⟨m, hm, hrep⟩ := List.mem_map.mp hl
  by_cases hmp : (W ++ ['=']).isPrefixOf m = true
  · have hl2 : l = canonicalLine W w := by rw [← hrep]; simp [replaceLine, hmp]
    rw [hl2] at hp
    rw [isPrefixOf_canonical_other hW hV (fun hq => hne hq.symm)] at hp
    exact absurd hp (by simp)
  · have hl2 : l = m := by rw [← hrep]; simp [replaceLine, hmp]
    rw [hl2]
    exact h m hm (hl2 ▸ hp)

theorem update_fixed_of_inv {F V v : List Char}
    (hnorm : normNewlines F = F) (hinv : linesCanonical V v (splitNl F)) :
    update_script_content F V v = F := by
  have h : ∀ l ∈ splitNl (normNewlines F), replaceLine V v l = l := by
    intro l hl
    rw [hnorm] at hl
    by_cases hp : (V ++ ['=']).isPrefixOf l = true
    · have hc := hinv l hl hp
      rw [hc]
      exact replaceLine_canonical_self V v
    · simp [replaceLine, hp]
  rw [update_eq_norm_of_fixed h, hnorm]

theorem applyWrites_inv_keep {V v : List Char} (hV : goodName V)
    (ws' : List (List Char × List Char))
    (hws : ∀ w ∈ ws', goodName w.1 ∧ tokenSafe w.2 ∧ (w.1 = V → w.2 = v)) :
    ∀ g, linesCanonical V v (splitNl g) → normNewlines g = g →
    linesCanonical V v (splitNl (applyWrites g ws')) ∧
      normNewlines (applyWrites g ws') = applyWrites g ws' := by
  induction ws' with
  | nil => intro g h1 h2; exact ⟨h1, h2⟩
  | cons w rest ih =>
    intro g hinv hnorm
    obtain ⟨W0, w0⟩ := w
    have hgw := hws (W0, w0) (List.mem_cons_self _ _)
    have hws' : ∀ x ∈ rest, goodName x.1 ∧ tokenSafe x.2 ∧ (x.1 = V → x.2 = v) :=
      fun x hx => hws x (List.mem_cons_of_mem _ hx)
    rw [applyWrites_cons]
    apply ih hws'
    · rw [splitNl_update g W0 w0 hgw.1 hgw.2.1.1 hgw.2.1.2, hnorm]
      by_cases hWV : W0 = V
      · have hw0 : w0 = v := hgw.2.2 hWV
        rw [hWV, hw0]
        exact linesCanonical_map_self V v _
      · exact linesCanonical_map_other hV hgw.1 hWV hinv
    · exact normNewlines_update g W0 w0 hgw.1 hgw.2.1.2

theorem applyWrites_canonical {V v : List Char} (hV : goodName V)
    (ws : List (List Char × List Char))
    (hws : ∀ w ∈ ws, goodName w.1 ∧ tokenSafe w.2 ∧ (w.1 = V → w.2 = v)) :
    ∀ f, (V, v) ∈ ws →
    linesCanonical V v (splitNl (applyWrites f ws)) ∧
      normNewlines (applyWrites f ws) = applyWrites f ws := by
  induction ws with
  | nil => intro f hmem; simp at hmem
  | cons w rest ih =>
    intro f hmem
    obtain ⟨W0, w0⟩ := w
    have hgw := hws (W0, w0) (List.mem_cons_self _ _)
    have hws' : ∀ x ∈ rest, goodName x.1 ∧ tokenSafe x.2 ∧ (x.1 = V → x.2 = v) :=
      fun x hx => hws x (List.mem_cons_of_mem _ hx)
    rw [applyWrites_cons]
    by_cases hWV : W0 = V
    · have hw0 : w0 = v := hgw.2.2 hWV
      apply applyWrites_inv_keep hV rest hws'
      · rw [splitNl_update f W0 w0 hgw.1 hgw.2.1.1 hgw.2.1.2, hWV, hw0]
        exact linesCanonical_map_self V v _
      · exact normNewlines_update f W0 w0 hgw.1 hgw.2.1.2
    · have hmem2 : (V, v) ∈ rest := by
        rcases List.mem_cons.mp hmem with h1 | h1
        · injection h1 with h2 h3
          exact absurd h2.symm hWV
        · exact h1
      exact ih hws' (update_script_content f W0 w0) hmem2

theorem applyWrites_update_fixed {V v : List Char} (hV : goodName V)
    {ws : List (List Char × List Char)}
    (hws : ∀ w ∈ ws, goodName w.1 ∧ tokenSafe w.2 ∧ (w.1 = V → w.2 = v))
    {f : List Char} (hmem : (V, v) ∈ ws) :
    update_script_content (applyWrites f ws) V v = applyWrites f ws := by
  obtain ⟨h1, h2⟩ := applyWrites_canonical hV ws hws f hmem
  exact update_fixed_of_inv h2 h1

/-! ## Lemmas: what WriteSpec pins down -/

theorem revVar_ne_hgrevVar {s t : List Char} (hs : s ∈ suffixes) (ht : t ∈ suffixes) :
    revVar s ≠ hgrevVar t :=
  (name_disjoint_tables s hs t ht).2.2.2.2.2.2.2.2.2.1

theorem revVar_ne_commitVar {s t : List Char} (hs : s ∈ suffixes) (ht : t ∈ suffixes) :
    revVar s ≠ commitVar t :=
  (name_disjoint_tables s hs t ht).2.2.2.2.2.2.2.2.2.2.1

theorem hgrevVar_ne_commitVar {s t : List Char} (hs : s ∈ suffixes) (ht : t ∈ suffixes) :
    hgrevVar s ≠ commitVar t :=
  (name_disjoint_tables s hs t ht).2.2.2.2.2.2.2.2.2.2.2.1

theorem revVar_inj {s t : List Char} (hs : s ∈ suffixes) (ht : t ∈ suffixes) :
    revVar s = revVar t → s = t :=
  (name_disjoint_tables s hs t ht).2.2.2.2.2.2.2.2.2.2.2.2.2.2.2.1

theorem hgrevVar_inj {s t : List Char} (hs : s ∈ suffixes) (ht : t ∈ suffixes) :
    hgrevVar s = hgrevVar t → s = t :=
  (name_disjoint_tables s hs t ht).2.2.2.2.2.2.2.2.2.2.2.2.2.2.2.2.1

theorem commitVar_inj {s t : List Char} (hs : s ∈ suffixes) (ht : t ∈ suffixes) :
    commitVar s = commitVar t → s = t :=
  (name_disjoint_tables s hs t ht).2.2.2.2.2.2.2.2.2.2.2.2.2.2.2.2.2

theorem writeSpec_name_shape {env : Env} {vars : Vars} {V v : List Char}
    (h : WriteSpec env vars V v) :
    ∃ s, s ∈ suffixes ∧ (V = revVar s ∨ V = hgrevVar s ∨ V = commitVar s) := by
  obtain ⟨_, _, _, s, hs, hdisj⟩ := h
  rcases hdisj with ⟨hV, _⟩ | ⟨hV, _⟩ | ⟨hV, _⟩
  · exact ⟨s, hs, Or.inl hV⟩
  · exact ⟨s, hs, Or.inr (Or.inl hV)⟩
  · exact ⟨s, hs, Or.inr (Or.inr hV)⟩

theorem writeSpec_name_ne {env : Env} {vars : Vars} {V v : List Char}
    (h : WriteSpec env vars V v) (t : List Char) (ht : t ∈ suffixes) :
    V ≠ repoVar t ∧ V ≠ branchVar t ∧ V ≠ tagfilterVar t ∧ V ≠ str "SCRIPT_SKIP" := by
  obtain ⟨s, hs, hshape⟩ := writeSpec_name_shape h
  have htab := name_disjoint_tables s hs t ht
  have htab2 := name_disjoint_tables s hs s hs
  rcases hshape with hV | hV | hV <;> subst hV
  · exact ⟨htab.1, htab.2.1, htab.2.2.1, htab2.2.2.2.2.2.2.2.2.2.2.2.2.1⟩
  · exact ⟨htab.2.2.2.1, htab.2.2.2.2.1, htab.2.2.2.2.2.1,
      htab2.2.2.2.2.2.2.2.2.2.2.2.2.2.1⟩
  · exact ⟨htab.2.2.2.2.2.2.1, htab.2.2.2.2.2.2.2.1, htab.2.2.2.2.2.2.2.2.1,
      htab2.2.2.2.2.2.2.2.2.2.2.2.2.2.2.1⟩

theorem writeSpec_unique {env : Env} {vars : Vars} {V v v' : List Char}
    (h1 : WriteSpec env vars V v) (h2 : WriteSpec env vars V v') : v = v' := by
  obtain ⟨_, _, _, s1, hs1, hd1⟩ := h1
  obtain ⟨_, _, _, s2, hs2, hd2⟩ := h2
  rcases hd1 with ⟨hV1, _, _, hch1, _⟩ | ⟨hV1, _, _, _, hch1, _⟩ | ⟨hV1, _, _, _, _, hch1, _⟩ <;>
    rcases hd2 with ⟨hV2, _, _, hch2, _⟩ | ⟨hV2, _, _, _, hch2, _⟩ | ⟨hV2, _, _, _, _, hch2, _⟩
  · have hss : s1 = s2 := revVar_inj hs1 hs2 (hV1 ▸ hV2)
    subst hss
    rw [hch1] at hch2
    injection hch2 with h3
    injection h3
  · exact absurd (hV1 ▸ hV2) (revVar_ne_hgrevVar hs1 hs2)
  · exact absurd (hV1 ▸ hV2) (revVar_ne_commitVar hs1 hs2)
  · exact absurd (hV2 ▸ hV1) (revVar_ne_hgrevVar hs2 hs1)
  · have hss : s1 = s2 := hgrevVar_inj hs1 hs2 (hV1 ▸ hV2)
    subst hss
    rw [hch1] at hch2
    injection hch2 with h3
    injection h3
  · exact absurd (hV1 ▸ hV2) (hgrevVar_ne_commitVar hs1 hs2)
  · exact absurd (hV2 ▸ hV1) (revVar_ne_commitVar hs2 hs1)
  · exact absurd (hV2 ▸ hV1) (hgrevVar_ne_commitVar hs2 hs1)
  · have hss : s1 = s2 := commitVar_inj hs1 hs2 (hV1 ▸ hV2)
    subst hss
    rw [hch1] at hch2
    injection hch2 with h3
    injection h3

theorem writeSpec_rev_elim {env : Env} {vars : Vars} {sfx v : List Char}
    (hsfx : sfx ∈ suffixes) (h : WriteSpec env vars (revVar sfx) v) :
    truthy (vars (repoVar sfx)) = true ∧ truthy (vars (revVar sfx)) = true ∧
    check_svn_repo env.svn ((vars (repoVar sfx)).getD [])
      ((vars (revVar sfx)).getD []) = .ok (some v) ∧
    v ≠ (vars (revVar sfx)).getD [] ∧ v ≠ [] := by
  obtain ⟨hvne, _, _, s, hs, hdisj⟩ := h
  rcases hdisj with ⟨hV, hrep, hrv, hch, hne⟩ | ⟨hV, _⟩ | ⟨hV, _⟩
  · have hss : sfx = s := revVar_inj hsfx hs hV
    subst hss
    exact ⟨hrep, hrv, hch, hne, hvne⟩
  · exact absurd hV (revVar_ne_hgrevVar hsfx hs)
  · exact absurd hV (revVar_ne_commitVar hsfx hs)

theorem writeSpec_hgrev_elim {env : Env} {vars : Vars} {sfx v : List Char}
    (hsfx : sfx ∈ suffixes) (h : WriteSpec env vars (hgrevVar sfx) v) :
    truthy (vars (repoVar sfx)) = true ∧ truthy (vars (revVar sfx)) = false ∧
    truthy (vars (hgrevVar sfx)) = true ∧
    check_hg_repo env.hg ((vars (repoVar sfx)).getD [])
      ((vars (hgrevVar sfx)).getD []) = .ok (some v) ∧
    v ≠ (vars (hgrevVar sfx)).getD [] ∧ v ≠ [] := by
  obtain ⟨hvne, _, _, s, hs, hdisj⟩ := h
  rcases hdisj with ⟨hV, _⟩ | ⟨hV, hrep, hrv, hhg, hch, hne⟩ | ⟨hV, _⟩
  · exact absurd hV.symm (revVar_ne_hgrevVar hs hsfx)
  · have hss : sfx = s := hgrevVar_inj hsfx hs hV
    subst hss
    exact ⟨hrep, hrv, hhg, hch, hne, hvne⟩
  · exact absurd hV (hgrevVar_ne_commitVar hsfx hs)

theorem writeSpec_commit_elim {env : Env} {vars : Vars} {sfx v : List Char}
    (hsfx : sfx ∈ suffixes) (h : WriteSpec env vars (commitVar sfx) v) :
    truthy (vars (repoVar sfx)) = true ∧ truthy (vars (revVar sfx)) = false ∧
    truthy (vars (hgrevVar sfx)) = false ∧ truthy (vars (commitVar sfx)) = true ∧
    check_git_repo env.git ((vars (repoVar sfx)).getD [])
      ((vars (commitVar sfx)).getD [])
      (vars (branchVar sfx)) (vars (tagfilterVar sfx)) = .ok (some v) ∧
    v ≠ (vars (commitVar sfx)).getD [] ∧ v ≠ [] := by
  obtain ⟨hvne, _, _, s, hs, hdisj⟩ := h
  rcases hdisj with ⟨hV, _⟩ | ⟨hV, _⟩ | ⟨hV, hrep, hrv, hhg, hcm, hch, hne⟩
  · exact absurd hV.symm (revVar_ne_commitVar hs hsfx)
  · exact absurd hV.symm (hgrevVar_ne_commitVar hs hsfx)
  · have hss : sfx = s := commitVar_inj hsfx hs hV
    subst hss
    exact ⟨hrep, hrv, hhg, hcm, hch, hne, hvne⟩

theorem isEmpty_false_of_ne {v : List Char} (h : v ≠ []) : v.isEmpty = false := by
  cases v with
  | nil => exact absurd rfl h
  | cons a t => rfl

theorem processSlots_second_run (env : Env) (vars0 vars1 : Vars)
    (ws : List (List Char × List Char)) (F1 : List Char)
    (hspec : ∀ w ∈ ws, WriteSpec env vars0 w.1 w.2)
    (hother : ∀ W, goodName W → (∀ v, (W, v) ∉ ws) → vars1 W = vars0 W)
    (hself : ∀ V v, (V, v) ∈ ws → vars1 V = some v ∨ vars1 V = vars0 V)
    (hfixed : ∀ V v, (V, v) ∈ ws → update_script_content F1 V v = F1) :
    ∀ sfxs, (∀ s ∈ sfxs, s ∈ suffixes) →
    noMarkerActions (processSlots env vars0 sfxs F1).actions →
    (∀ w ∈ writesOf (processSlots env vars0 sfxs F1).actions, w ∈ ws) →
    (processSlots env vars1 sfxs F1).file = F1 := by
  intro sfxs
  induction sfxs with
  | nil => intro _ _ _; rfl
  | cons sfx rest ih =>
    intro hsub hnm hwsub
    have hsfx : sfx ∈ suffixes := hsub sfx (List.mem_cons_self _ _)
    have hrest : ∀ s ∈ rest, s ∈ suffixes := fun s hs => hsub s (List.mem_cons_of_mem _ hs)
    have hgt := goodName_tables sfx hsfx
    have hrepo1 : vars1 (repoVar sfx) = vars0 (repoVar sfx) :=
      hother _ hgt.1 (fun v hv => (writeSpec_name_ne (hspec _ hv) sfx hsfx).1 rfl)
    have hbr1 : vars1 (branchVar sfx) = vars0 (branchVar sfx) :=
      hother _ hgt.2.2.2.2.1 (fun v hv => (writeSpec_name_ne (hspec _ hv) sfx hsfx).2.1 rfl)
    have htf1 : vars1 (tagfilterVar sfx) = vars0 (tagfilterVar sfx) :=
      hother _ hgt.2.2.2.2.2 (fun v hv => (writeSpec_name_ne (hspec _ hv) sfx hsfx).2.2.1 rfl)
    rcases slotDecision_cases env vars0 sfx with
      ⟨hr0, he0, hd0⟩ | ⟨hr0, he0, hd0⟩ | ⟨hr0, hv0, hd0⟩ | ⟨hr0, hv0, hh0, hd0⟩ |
      ⟨hr0, hv0, hh0, hc0, hd0⟩ | ⟨hr0, hv0, hh0, hc0, hd0⟩
    · -- markCheck: contradicts noMarkerActions
      rw [processSlots_cons] at hnm
      simp only [processOneSlot, hd0] at hnm
      exact absurd (hnm Action.markCheckme (by simp)) (by simp [Action.isMarker])
    · -- stopSilent
      have hd1 : slotDecision env vars1 sfx = .stopSilent := by
        simp [slotDecision, hrepo1, hr0, he0]
      rw [processSlots_cons]
      simp only [processOneSlot, hd1]
    · -- svn branch
      have hhg_not : ∀ v, (hgrevVar sfx, v) ∉ ws := by
        intro v hv
        have h2 := (writeSpec_hgrev_elim hsfx (hspec _ hv)).2.1
        rw [hv0] at h2
        exact absurd h2 (by decide)
      have hcom_not : ∀ v, (commitVar sfx, v) ∉ ws := by
        intro v hv
        have h2 := (writeSpec_commit_elim hsfx (hspec _ hv)).2.1
        rw [hv0] at h2
        exact absurd h2 (by decide)
      have hhg1 : vars1 (hgrevVar sfx) = vars0 (hgrevVar sfx) :=
        hother _ hgt.2.2.2.1 hhg_not
      have hcom1 : vars1 (commitVar sfx) = vars0 (commitVar sfx) :=
        hother _ hgt.2.1 hcom_not
      rw [processSlots_cons] at hnm hwsub
      simp only [processOneSlot, hd0] at hnm hwsub
      by_cases hrevin : ∃ v, (revVar sfx, v) ∈ ws
      · obtain ⟨v, hvmem⟩ := hrevin
        have helim := writeSpec_rev_elim hsfx (hspec _ hvmem)
        have hvne : v ≠ [] := helim.2.2.2.2
        have hvemp : v.isEmpty = false := isEmpty_false_of_ne hvne
        have hvcur : v ≠ (vars0 (revVar sfx)).getD [] := helim.2.2.2.1
        have hb0 : branchDecision
            (check_svn_repo env.svn ((vars0 (repoVar sfx)).getD [])
              ((vars0 (revVar sfx)).getD []))
            (.checkSvn sfx ((vars0 (repoVar sfx)).getD [])) (revVar sfx)
            ((vars0 (revVar sfx)).getD []) =
            .checkWrite (.checkSvn sfx ((vars0 (repoVar sfx)).getD [])) (revVar sfx) v := by
          rw [helim.2.2.1]
          simp [branchDecision, hvemp, hvcur]
        rw [hb0] at hnm hwsub
        have hnm2 := (noMarkerActions_append hnm).2
        have hacteq := (processSlots_actions_indep env vars0 rest
          (update_script_content F1 (revVar sfx) v) F1).1
        rw [hacteq] at hnm2
        have hwsub2 : ∀ w ∈ writesOf (processSlots env vars0 rest F1).actions, w ∈ ws := by
          intro w hw
          apply hwsub
          rw [writesOf_append]
          apply List.mem_append.mpr
          right
          rw [hacteq]
          exact hw
        have hres1 : check_svn_repo env.svn ((vars0 (repoVar sfx)).getD [])
            ((vars1 (revVar sfx)).getD []) = .ok (some v) := helim.2.2.1
        rcases hself _ _ hvmem with hv1 | hv1
        · have htr1 : truthy (vars1 (revVar sfx)) = true := by
            rw [hv1]
            simp [truthy, hvemp]
          have hd1 : slotDecision env vars1 sfx =
              .checkNoWrite (.checkSvn sfx ((vars0 (repoVar sfx)).getD [])) := by
            simp only [slotDecision, hrepo1, hr0, htr1, if_true]
            rw [hres1]
            simp [branchDecision, hv1]
          rw [processSlots_cons]
          simp only [processOneSlot, hd1]
          show (processSlots env vars1 rest F1).file = F1
          exact ih hrest hnm2 hwsub2
        · have htr1 : truthy (vars1 (revVar sfx)) = true := by rw [hv1]; exact hv0
          have hd1 : slotDecision env vars1 sfx =
              .checkWrite (.checkSvn sfx ((vars0 (repoVar sfx)).getD []))
                (revVar sfx) v := by
            simp only [slotDecision, hrepo1, hr0, htr1, if_true]
            rw [hres1]
            simp [branchDecision, hvemp, hv1, hvcur]
          rw [processSlots_cons]
          simp only [processOneSlot, hd1]
          show (processSlots env vars1 rest
            (update_script_content F1 (revVar sfx) v)).file = F1
          rw [hfixed _ _ hvmem]
          exact ih hrest hnm2 hwsub2
      · have hrev1 : vars1 (revVar sfx) = vars0 (revVar sfx) := by
          apply hother _ hgt.2.2.1
          intro v hv
          exact hrevin ⟨v, hv⟩
        have hcongr : slotDecision env vars1 sfx = slotDecision env vars0 sfx :=
          slotDecision_congr hrepo1 hrev1 hhg1 hcom1 hbr1 htf1
        have hd1 := hcongr.trans hd0
        cases hb0 : branchDecision
            (check_svn_repo env.svn ((vars0 (repoVar sfx)).getD [])
              ((vars0 (revVar sfx)).getD []))
            (.checkSvn sfx ((vars0 (repoVar sfx)).getD [])) (revVar sfx)
            ((vars0 (revVar sfx)).getD []) with
        | markCheck => exact absurd hb0 (branchDecision_ne_mark _ _ _ _).1
        | stopSilent => exact absurd hb0 (branchDecision_ne_mark _ _ _ _).2.1
        | markUnk => exact absurd hb0 (branchDecision_ne_mark _ _ _ _).2.2
        | checkErr a e =>
          rw [processSlots_cons]
          simp only [processOneSlot, hd1, hb0]
        | checkWrite a V v =>
          obtain ⟨hres, ha, hV, hvne, hvcur⟩ := branchDecision_inv_write hb0
          rw [hb0] at hwsub
          have hin : (V, v) ∈ ws := by
            apply hwsub
            rw [writesOf_append]
            apply List.mem_append.mpr
            left
            rw [show ([a, Action.writeVar sfx V v] : List Action) =
              [a] ++ [Action.writeVar sfx V v] from by simp]
            rw [writesOf_append, ha]
            simp [writesOf]
          subst hV
          exact absurd hin (fun h => hrevin ⟨v, h⟩)
        | checkNoWrite a =>
          rw [hb0] at hnm hwsub
          have hnm2 := (noMarkerActions_append hnm).2
          have hwsub2 : ∀ w ∈ writesOf (processSlots env vars0 rest F1).actions,
              w ∈ ws := by
            intro w hw
            apply hwsub
            rw [writesOf_append]
            exact List.mem_append.mpr (Or.inr hw)
          rw [processSlots_cons]
          simp only [processOneSlot, hd1, hb0]
          show (processSlots env vars1 rest F1).file = F1
          exact ih hrest hnm2 hwsub2
    · -- hg branch
      have hrev_not : ∀ v, (revVar sfx, v) ∉ ws := by
        intro v hv
        have h2 := (writeSpec_rev_elim hsfx (hspec _ hv)).2.1
        rw [hv0] at h2
        exact absurd h2 (by decide)
      have hcom_not : ∀ v, (commitVar sfx, v) ∉ ws := by
        intro v hv
        have h2 := (writeSpec_commit_elim hsfx (hspec _ hv)).2.2.1
        rw [hh0] at h2
        exact absurd h2 (by decide)
      have hrev1 : vars1 (revVar sfx) = vars0 (revVar sfx) :=
        hother _ hgt.2.2.1 hrev_not
      have hcom1 : vars1 (commitVar sfx) = vars0 (commitVar sfx) :=
        hother _ hgt.2.1 hcom_not
      rw [processSlots_cons] at hnm hwsub
      simp only [processOneSlot, hd0] at hnm hwsub
      by_cases hhgin : ∃ v, (hgrevVar sfx, v) ∈ ws
      · obtain ⟨v, hvmem⟩ := hhgin
        have helim := writeSpec_hgrev_elim hsfx (hspec _ hvmem)
        have hvne : v ≠ [] := helim.2.2.2.2.2
        have hvemp : v.isEmpty = false := isEmpty_false_of_ne hvne
        have hvcur : v ≠ (vars0 (hgrevVar sfx)).getD [] := helim.2.2.2.2.1
        have hb0 : branchDecision
            (check_hg_repo env.hg ((vars0 (repoVar sfx)).getD [])
              ((vars0 (hgrevVar sfx)).getD []))
            (.checkHg sfx ((vars0 (repoVar sfx)).getD [])) (hgrevVar sfx)
            ((vars0 (hgrevVar sfx)).getD []) =
            .checkWrite (.checkHg sfx ((vars0 (repoVar sfx)).getD []))
              (hgrevVar sfx) v := by
          rw [helim.2.2.2.1]
          simp [branchDecision, hvemp, hvcur]
        rw [hb0] at hnm hwsub
        have hnm2 := (noMarkerActions_append hnm).2
        have hacteq := (processSlots_actions_indep env vars0 rest
          (update_script_content F1 (hgrevVar sfx) v) F1).1
        rw [hacteq] at hnm2
        have hwsub2 : ∀ w ∈ writesOf (processSlots env vars0 rest F1).actions, w ∈ ws := by
          intro w hw
          apply hwsub
          rw [writesOf_append]
          apply List.mem_append.mpr
          right
          rw [hacteq]
          exact hw
        have hres1 : check_hg_repo env.hg ((vars0 (repoVar sfx)).getD [])
            ((vars1 (hgrevVar sfx)).getD []) = .ok (some v) := helim.2.2.2.1
        rcases hself _ _ hvmem with hv1 | hv1
        · have htr1 : truthy (vars1 (hgrevVar sfx)) = true := by
            rw [hv1]
            simp [truthy, hvemp]
          have hd1 : slotDecision env vars1 sfx =
              .checkNoWrite (.checkHg sfx ((vars0 (repoVar sfx)).getD [])) := by
            simp only [slotDecision, hrepo1, hrev1, hv0, hr0, htr1, if_true,
              Bool.false_eq_true, if_false]
            rw [hres1]
            simp [branchDecision, hv1]
          rw [processSlots_cons]
          simp only [processOneSlot, hd1]
          show (processSlots env vars1 rest F1).file = F1
          exact ih hrest hnm2 hwsub2
        · have htr1 : truthy (vars1 (hgrevVar sfx)) = true := by rw [hv1]; exact hh0
          have hd1 : slotDecision env vars1 sfx =
              .checkWrite (.checkHg sfx ((vars0 (repoVar sfx)).getD []))
                (hgrevVar sfx) v := by
            simp only [slotDecision, hrepo1, hrev1, hv0, hr0, htr1, if_true,
              Bool.false_eq_true, if_false]
            rw [hres1]
            simp [branchDecision, hvemp, hv1, hvcur]
          rw [processSlots_cons]
          simp only [processOneSlot, hd1]
          show (processSlots env vars1 rest
            (update_script_content F1 (hgrevVar sfx) v)).file = F1
          rw [hfixed _ _ hvmem]
          exact ih hrest hnm2 hwsub2
      · have hhg1 : vars1 (hgrevVar sfx) = vars0 (hgrevVar sfx) := by
          apply hother _ hgt.2.2.2.1
          intro v hv
          exact hhgin ⟨v, hv⟩
        have hcongr : slotDecision env vars1 sfx = slotDecision env vars0 sfx :=
          slotDecision_congr hrepo1 hrev1 hhg1 hcom1 hbr1 htf1
        have hd1 := hcongr.trans hd0
        cases hb0 : branchDecision
            (check_hg_repo env.hg ((vars0 (repoVar sfx)).getD [])
              ((vars0 (hgrevVar sfx)).getD []))
            (.checkHg sfx ((vars0 (repoVar sfx)).getD [])) (hgrevVar sfx)
            ((vars0 (hgrevVar sfx)).getD []) with
        | markCheck => exact absurd hb0 (branchDecision_ne_mark _ _ _ _).1
        | stopSilent => exact absurd hb0 (branchDecision_ne_mark _ _ _ _).2.1
        | markUnk => exact absurd hb0 (branchDecision_ne_mark _ _ _ _).2.2
        | checkErr a e =>
          rw [processSlots_cons]
          simp only [processOneSlot, hd1, hb0]
        | checkWrite a V v =>
          obtain ⟨hres, ha, hV, hvne, hvcur⟩ := branchDecision_inv_write hb0
          rw [hb0] at hwsub
          have hin : (V, v) ∈ ws := by
            apply hwsub
            rw [writesOf_append]
            apply List.mem_append.mpr
            left
            rw [show ([a, Action.writeVar sfx V v] : List Action) =
              [a] ++ [Action.writeVar sfx V v] from by simp]
            rw [writesOf_append, ha]
            simp [writesOf]
          subst hV
          exact absurd hin (fun h => hhgin ⟨v, h⟩)
        | checkNoWrite a =>
          rw [hb0] at hnm hwsub
          have hnm2 := (noMarkerActions_append hnm).2
          have hwsub2 : ∀ w ∈ writesOf (processSlots env vars0 rest F1).actions,
              w ∈ ws := by
            intro w hw
            apply hwsub
            rw [writesOf_append]
            exact List.mem_append.mpr (Or.inr hw)
          rw [processSlots_cons]
          simp only [processOneSlot, hd1, hb0]
          show (processSlots env vars1 rest F1).file = F1
          exact ih hrest hnm2 hwsub2
    · -- git branch
      have hrev_not : ∀ v, (revVar sfx, v) ∉ ws := by
        intro v hv
        have h2 := (writeSpec_rev_elim hsfx (hspec _ hv)).2.1
        rw [hv0] at h2
        exact absurd h2 (by decide)
      have hhg_not : ∀ v, (hgrevVar sfx, v) ∉ ws := by
        intro v hv
        have h2 := (writeSpec_hgrev_elim hsfx (hspec _ hv)).2.2.1
        rw [hh0] at h2
        exact absurd h2 (by decide)
      have hrev1 : vars1 (revVar sfx) = vars0 (revVar sfx) :=
        hother _ hgt.2.2.1 hrev_not
      have hhg1 : vars1 (hgrevVar sfx) = vars0 (hgrevVar sfx) :=
        hother _ hgt.2.2.2.1 hhg_not
      rw [processSlots_cons] at hnm hwsub
      simp only [processOneSlot, hd0] at hnm hwsub
      by_cases hcomin : ∃ v, (commitVar sfx, v) ∈ ws
      · obtain ⟨v, hvmem⟩ := hcomin
        have helim := writeSpec_commit_elim hsfx (hspec _ hvmem)
        have hvne : v ≠ [] := helim.2.2.2.2.2.2
        have hvemp : v.isEmpty = false := isEmpty_false_of_ne hvne
        have hvcur : v ≠ (vars0 (commitVar sfx)).getD [] := helim.2.2.2.2.2.1
        have hb0 : branchDecision
            (check_git_repo env.git ((vars0 (repoVar sfx)).getD [])
              ((vars0 (commitVar sfx)).getD [])
              (vars0 (branchVar sfx)) (vars0 (tagfilterVar sfx)))
            (.checkGit sfx ((vars0 (repoVar sfx)).getD [])) (commitVar sfx)
            ((vars0 (commitVar sfx)).getD []) =
            .checkWrite (.checkGit sfx ((vars0 (repoVar sfx)).getD []))
              (commitVar sfx) v := by
          rw [helim.2.2.2.2.1]
          simp [branchDecision, hvemp, hvcur]
        rw [hb0] at hnm hwsub
        have hnm2 := (noMarkerActions_append hnm).2
        have hacteq := (processSlots_actions_indep env vars0 rest
          (update_script_content F1 (commitVar sfx) v) F1).1
        rw [hacteq] at hnm2
        have hwsub2 : ∀ w ∈ writesOf (processSlots env vars0 rest F1).actions, w ∈ ws := by
          intro w hw
          apply hwsub
          rw [writesOf_append]
          apply List.mem_append.mpr
          right
          rw [hacteq]
          exact hw
        have hres1 : check_git_repo env.git ((vars0 (repoVar sfx)).getD [])
            ((vars1 (commitVar sfx)).getD [])
            (vars0 (branchVar sfx)) (vars0 (tagfilterVar sfx)) = .ok (some v) :=
          helim.2.2.2.2.1
        rcases hself _ _ hvmem with hv1 | hv1
        · have htr1 : truthy (vars1 (commitVar sfx)) = true := by
            rw [hv1]
            simp [truthy, hvemp]
          have hd1 : slotDecision env vars1 sfx =
              .checkNoWrite (.checkGit sfx ((vars0 (repoVar sfx)).getD [])) := by
            simp only [slotDecision, hrepo1, hrev1, hhg1, hbr1, htf1, hv0, hh0, hr0,
              htr1, if_true, Bool.false_eq_true, if_false]
            rw [hres1]
            simp [branchDecision, hv1]
          rw [processSlots_cons]
          simp only [processOneSlot, hd1]
          show (processSlots env vars1 rest F1).file = F1
          exact ih hrest hnm2 hwsub2
        · have htr1 : truthy (vars1 (commitVar sfx)) = true := by rw [hv1]; exact hc0
          have hd1 : slotDecision env vars1 sfx =
              .checkWrite (.checkGit sfx ((vars0 (repoVar sfx)).getD []))
                (commitVar sfx) v := by
            simp only [slotDecision, hrepo1, hrev1, hhg1, hbr1, htf1, hv0, hh0, hr0,
              htr1, if_true, Bool.false_eq_true, if_false]
            rw [hres1]
            simp [branchDecision, hvemp, hv1, hvcur]
          rw [processSlots_cons]
          simp only [processOneSlot, hd1]
          show (processSlots env vars1 rest
            (update_script_content F1 (commitVar sfx) v)).file = F1
          rw [hfixed _ _ hvmem]
          exact ih hrest hnm2 hwsub2
      · have hcom1 : vars1 (commitVar sfx) = vars0 (commitVar sfx) := by
          apply hother _ hgt.2.1
          intro v hv
          exact hcomin ⟨v, hv⟩
        have hcongr : slotDecision env vars1 sfx = slotDecision env vars0 sfx :=
          slotDecision_congr hrepo1 hrev1 hhg1 hcom1 hbr1 htf1
        have hd1 := hcongr.trans hd0
        cases hb0 : branchDecision
            (check_git_repo env.git ((vars0 (repoVar sfx)).getD [])
              ((vars0 (commitVar sfx)).getD [])
              (vars0 (branchVar sfx)) (vars0 (tagfilterVar sfx)))
            (.checkGit sfx ((vars0 (repoVar sfx)).getD [])) (commitVar sfx)
            ((vars0 (commitVar sfx)).getD []) with
        | markCheck => exact absurd hb0 (branchDecision_ne_mark _ _ _ _).1
        | stopSilent => exact absurd hb0 (branchDecision_ne_mark _ _ _ _).2.1
        | markUnk => exact absurd hb0 (branchDecision_ne_mark _ _ _ _).2.2
        | checkErr a e =>
          rw [processSlots_cons]
          simp only [processOneSlot, hd1, hb0]
        | checkWrite a V v =>
          obtain ⟨hres, ha, hV, hvne, hvcur⟩ := branchDecision_inv_write hb0
          rw [hb0] at hwsub
          have hin : (V, v) ∈ ws := by
            apply hwsub
            rw [writesOf_append]
            apply List.mem_append.mpr
            left
            rw [show ([a, Action.writeVar sfx V v] : List Action) =
              [a] ++ [Action.writeVar sfx V v] from by simp]
            rw [writesOf_append, ha]
            simp [writesOf]
          subst hV
          exact absurd hin (fun h => hcomin ⟨v, h⟩)
        | checkNoWrite a =>
          rw [hb0] at hnm hwsub
          have hnm2 := (noMarkerActions_append hnm).2
          have hwsub2 : ∀ w ∈ writesOf (processSlots env vars0 rest F1).actions,
              w ∈ ws := by
            intro w hw
            apply hwsub
            rw [writesOf_append]
            exact List.mem_append.mpr (Or.inr hw)
          rw [processSlots_cons]
          simp only [processOneSlot, hd1, hb0]
          show (processSlots env vars1 rest F1).file = F1
          exact ih hrest hnm2 hwsub2
    · -- markUnk: contradicts noMarkerActions
      rw [processSlots_cons] at hnm
      simp only [processOneSlot, hd0] at hnm
      exact absurd (hnm (Action.markUnknown sfx) (by simp)) (by simp [Action.isMarker])

theorem process_script_skip {env : Env} {file : List Char}
    (h : get_script_vars (normNewlines file) (str "SCRIPT_SKIP") ≠ none) :
    process_script env file = ⟨file, [], none⟩ := by
  simp [process_script, h]

theorem process_script_noskip {env : Env} {file : List Char}
    (h : get_script_vars (normNewlines file) (str "SCRIPT_SKIP") = none) :
    process_script env file =
      processSlots env (get_script_vars (normNewlines file)) suffixes file := by
  simp [process_script, h]

/-- C3 (amended): running the whole update process twice in succession
with unchanged remote answers leaves the file byte-identical after the
second run, provided the first run appended no manual-check marker.  The
unconditional marker clause of the original claim fails -- markers are
re-appended on every run (see the counterexample). -/
theorem process_twice (env : Env) (file : List Char)
    (hnm : noMarkerActions (process_script env file).actions) :
    (process_script env (process_script env file).file).file =
      (process_script env file).file := by
  by_cases hskip : get_script_vars (normNewlines file) (str "SCRIPT_SKIP") = none
  case neg =>
    rw [process_script_skip hskip]
    show (process_script env file).file = file
    rw [process_script_skip hskip]
  case pos =>
    have h1 : process_script env file =
        processSlots env (get_script_vars (normNewlines file)) suffixes file :=
      process_script_noskip hskip
    rw [h1] at hnm ⊢
    have hsf : ∀ s ∈ suffixes, s ∈ suffixes := fun s hs => hs
    obtain ⟨hfile1, hspec⟩ := processSlots_decomp env
      (get_script_vars (normNewlines file)) suffixes hsf file hnm
    have hgood : ∀ w ∈ writesOf (processSlots env
        (get_script_vars (normNewlines file)) suffixes file).actions,
        goodName w.1 ∧ tokenSafe w.2 :=
      fun w hw => ⟨(hspec w hw).2.2.1, (hspec w hw).2.1⟩
    have hother : ∀ W, goodName W →
        (∀ v, (W, v) ∉ writesOf (processSlots env
          (get_script_vars (normNewlines file)) suffixes file).actions) →
        get_script_vars (normNewlines (processSlots env
          (get_script_vars (normNewlines file)) suffixes file).file) W =
        get_script_vars (normNewlines file) W := by
      intro W hW hnotin
      rw [hfile1]
      exact applyWrites_vars_other _ hgood file W hW hnotin
    have hself : ∀ V v, (V, v) ∈ writesOf (processSlots env
        (get_script_vars (normNewlines file)) suffixes file).actions →
        get_script_vars (normNewlines (processSlots env
          (get_script_vars (normNewlines file)) suffixes file).file) V = some v ∨
        get_script_vars (normNewlines (processSlots env
          (get_script_vars (normNewlines file)) suffixes file).file) V =
        get_script_vars (normNewlines file) V := by
      intro V v hmem
      rw [hfile1]
      exact applyWrites_vars_self _ hgood file V v hmem
        (fun v' hv' => writeSpec_unique (hspec (V, v') hv') (hspec (V, v) hmem))
    have hfixed : ∀ V v, (V, v) ∈ writesOf (processSlots env
        (get_script_vars (normNewlines file)) suffixes file).actions →
        update_script_content (processSlots env
          (get_script_vars (normNewlines file)) suffixes file).file V v =
        (processSlots env (get_script_vars (normNewlines file)) suffixes file).file := by
      intro V v hmem
      rw [hfile1]
      exact applyWrites_update_fixed (hspec (V, v) hmem).2.2.1
        (fun w hw => ⟨(hgood w hw).1, (hgood w hw).2,
          fun hq => writeSpec_unique (hq ▸ hspec w hw) (hspec (V, v) hmem)⟩)
        hmem
    have hskip_not : ∀ v, (str "SCRIPT_SKIP", v) ∉ writesOf (processSlots env
        (get_script_vars (normNewlines file)) suffixes file).actions :=
      fun v hv => (writeSpec_name_ne (hspec _ hv) (str "") (by decide)).2.2.2 rfl
    have hskip1 : get_script_vars (normNewlines (processSlots env
        (get_script_vars (normNewlines file)) suffixes file).file)
        (str "SCRIPT_SKIP") = none := by
      rw [hother (str "SCRIPT_SKIP") goodName_skip hskip_not]
      exact hskip
    rw [process_script_noskip hskip1]
    have hacteq := (processSlots_actions_indep env (get_script_vars (normNewlines file))
      suffixes (processSlots env (get_script_vars (normNewlines file))
        suffixes file).file file).1
    apply processSlots_second_run env (get_script_vars (normNewlines file))
      (get_script_vars (normNewlines (processSlots env
        (get_script_vars (normNewlines file)) suffixes file).file))
      (writesOf (processSlots env (get_script_vars (normNewlines file))
        suffixes file).actions)
      (processSlots env (get_script_vars (normNewlines file)) suffixes file).file
      hspec hother hself hfixed suffixes hsf
    · rw [hacteq]
      exact hnm
    · rw [hacteq]
      exact fun w hw => hw

theorem acts_filter_of_branch (env : Env) (vars : Vars) (sfx file : List Char)
    (res : Except PyExc (Option (List Char))) (a : Action) (n c : List Char)
    (ha : a.isCheck = true)
    (hd : slotDecision env vars sfx = branchDecision res a n c) :
    (processOneSlot env vars sfx file).acts.filter Action.isCheck = [a] := by
  cases res with
  | error e =>
    simp only [branchDecision] at hd
    simp [processOneSlot, hd, SlotStep.acts, List.filter_cons, ha]
  | ok o =>
    cases o with
    | none =>
      simp only [branchDecision] at hd
      simp [processOneSlot, hd, SlotStep.acts, List.filter_cons, ha]
    | some v =>
      simp only [branchDecision] at hd
      split at hd
      · have hw : Action.isCheck (Action.writeVar sfx n v) = false := rfl
        simp [processOneSlot, hd, SlotStep.acts, List.filter_cons, ha, hw]
      · simp [processOneSlot, hd, SlotStep.acts, List.filter_cons, ha]

/-- C1: with a tag filter set, the spec selects the version-aware highest
matching tag (here v1.10.0, commit 1111111), but `check_git_repo` takes the
first field of the **last** line of `git ls-remote` output, which lists refs
in bytewise refname order, yielding the commit of v1.3.0 (3333333) instead;
with no matching tag both agree on "no result". -/
theorem C1_tagfilter_divergence :
    refnameSorted c1Tags = true ∧
    specTagSelect c1Tags = some (str "1111111") ∧
    check_git_repo c1Git (str "https://r/x") (str "0000000") none (some (str "v1.*"))
      = .ok (some (str "3333333")) ∧
    (str "3333333" : List Char) ≠ str "1111111" ∧
    check_git_repo c1GitNone (str "https://r/x") (str "0000000") none (some (str "v1.*"))
      = .ok none :=
  ⟨by decide, by decide, by decide, by decide, by decide⟩

/-- C6: backend dispatch follows the precedence REV, then HGREV, then COMMIT
on the first non-empty marker variable, and exactly one checker is invoked
per slot: the check actions of the slot step form the corresponding
singleton. -/
theorem C6_dispatch_precedence (env : Env) (vars : Vars) (sfx file : List Char)
    (hrepo : truthy (vars (repoVar sfx)) = true) :
    (truthy (vars (revVar sfx)) = true →
      (processOneSlot env vars sfx file).acts.filter Action.isCheck
        = [Action.checkSvn sfx ((vars (repoVar sfx)).getD [])]) ∧
    (truthy (vars (revVar sfx)) = false → truthy (vars (hgrevVar sfx)) = true →
      (processOneSlot env vars sfx file).acts.filter Action.isCheck
        = [Action.checkHg sfx ((vars (repoVar sfx)).getD [])]) ∧
    (truthy (vars (revVar sfx)) = false → truthy (vars (hgrevVar sfx)) = false →
      truthy (vars (commitVar sfx)) = true →
      (processOneSlot env vars sfx file).acts.filter Action.isCheck
        = [Action.checkGit sfx ((vars (repoVar sfx)).getD [])]) := by
  refine ⟨fun hrev => ?_, fun hrev hhg => ?_, fun hrev hhg hcm => ?_⟩
  · have hd : slotDecision env vars sfx =
        branchDecision (check_svn_repo env.svn ((vars (repoVar sfx)).getD [])
            ((vars (revVar sfx)).getD []))
          (Action.checkSvn sfx ((vars (repoVar sfx)).getD []))
          (revVar sfx) ((vars (revVar sfx)).getD []) := by
      simp [slotDecision, hrepo, hrev]
    exact acts_filter_of_branch env vars sfx file _ _ _ _ rfl hd
  · have hd : slotDecision env vars sfx =
        branchDecision (check_hg_repo env.hg ((vars (repoVar sfx)).getD [])
            ((vars (hgrevVar sfx)).getD []))
          (Action.checkHg sfx ((vars (repoVar sfx)).getD []))
          (hgrevVar sfx) ((vars (hgrevVar sfx)).getD []) := by
      simp [slotDecision, hrepo, hrev, hhg]
    exact acts_filter_of_branch env vars sfx file _ _ _ _ rfl hd
  · have hd : slotDecision env vars sfx =
        branchDecision (check_git_repo env.git ((vars (repoVar sfx)).getD [])
            ((vars (commitVar sfx)).getD [])
            (vars (branchVar sfx)) (vars (tagfilterVar sfx)))
          (Action.checkGit sfx ((vars (repoVar sfx)).getD []))
          (commitVar sfx) ((vars (commitVar sfx)).getD []) := by
      simp [slotDecision, hrepo, hrev, hhg, hcm]
    exact acts_filter_of_branch env vars sfx file _ _ _ _ rfl hd

/-- Witness for C6: a slot with `SCRIPT_REPO` and `SCRIPT_REV` set
dispatches to the SVN checker alone. -/
theorem C6_dispatch_precedence_witness :
    truthy (varsSvnSlot (repoVar (str ""))) = true ∧
    ((truthy (varsSvnSlot (revVar (str ""))) = true →
      (processOneSlot envMissing varsSvnSlot (str "") []).acts.filter Action.isCheck
        = [Action.checkSvn (str "") ((varsSvnSlot (repoVar (str ""))).getD [])]) ∧
    (truthy (varsSvnSlot (revVar (str ""))) = false →
      truthy (varsSvnSlot (hgrevVar (str ""))) = true →
      (processOneSlot envMissing varsSvnSlot (str "") []).acts.filter Action.isCheck
        = [Action.checkHg (str "") ((varsSvnSlot (repoVar (str ""))).getD [])]) ∧
    (truthy (varsSvnSlot (revVar (str ""))) = false →
      truthy (varsSvnSlot (hgrevVar (str ""))) = false →
      truthy (varsSvnSlot (commitVar (str ""))) = true →
      (processOneSlot envMissing varsSvnSlot (str "") []).acts.filter Action.isCheck
        = [Action.checkGit (str "") ((varsSvnSlot (repoVar (str ""))).getD [])])) :=
  ⟨by decide, C6_dispatch_precedence envMissing varsSvnSlot (str "") [] (by decide)⟩

/-- C7: an SVN check whose stderr contains an authentication-prompt phrase
returns no result -- even when a revision number is parsable from stdout --
and the slot performs no write: the file is passed through unchanged with
only the check action logged. -/
theorem C7_svn_auth_skip (env : Env) (vars : Vars) (sfx file : List Char)
    (rc : Int) (out err : List Char)
    (hrun : env.svn.svnInfo ((vars (repoVar sfx)).getD []) = .ran rc out err)
    (hauth : authRequired err = true)
    (hrepo : truthy (vars (repoVar sfx)) = true)
    (hrev : truthy (vars (revVar sfx)) = true) :
    check_svn_repo env.svn ((vars (repoVar sfx)).getD [])
      ((vars (revVar sfx)).getD []) = .ok none ∧
    processOneSlot env vars sfx file =
      .cont file [Action.checkSvn sfx ((vars (repoVar sfx)).getD [])] := by
  have hchk : check_svn_repo env.svn ((vars (repoVar sfx)).getD [])
      ((vars (revVar sfx)).getD []) = .ok none := by
    simp [check_svn_repo, hrun, hauth]
  refine ⟨hchk, ?_⟩
  have hd : slotDecision env vars sfx = .checkNoWrite
      (Action.checkSvn sfx ((vars (repoVar sfx)).getD [])) := by
    simp [slotDecision, hrepo, hrev, hchk, branchDecision]
  simp [processOneSlot, hd]

/-- Witness for C7: an oracle that prints `Revision: 42` on stdout but
`Authentication required` on stderr yields no result and no file change. -/
theorem C7_svn_auth_skip_witness :
    envSvnAuth.svn.svnInfo ((varsSvnSlot (repoVar (str ""))).getD []) =
      .ran 0 (str "Revision: 42\n") (str "Authentication required") ∧
    authRequired (str "Authentication required") = true ∧
    (check_svn_repo envSvnAuth.svn ((varsSvnSlot (repoVar (str ""))).getD [])
      ((varsSvnSlot (revVar (str ""))).getD []) = .ok none ∧
    processOneSlot envSvnAuth varsSvnSlot (str "") (str "X") =
      .cont (str "X") [Action.checkSvn (str "") ((varsSvnSlot (repoVar (str ""))).getD [])]) :=
  ⟨by decide, by decide,
   C7_svn_auth_skip envSvnAuth varsSvnSlot (str "") (str "X") 0 (str "Revision: 42\n")
     (str "Authentication required") (by decide) (by decide) (by decide) (by decide)⟩

/-- C8: the slot scan stops at the first suffix whose `REPO{suffix}`
variable is untruthy (for a later slot, silently): the remaining suffixes
are never visited, no action is logged and the file is unchanged,
independently of what the remaining suffixes' variables hold. -/
theorem C8_slot_contiguity (env : Env) (vars : Vars) (sfx : List Char)
    (rest : List (List Char)) (file : List Char)
    (hsfx : sfx.isEmpty = false)
    (hrepo : truthy (vars (repoVar sfx)) = false) :
    processSlots env vars (sfx :: rest) file = ⟨file, [], none⟩ := by
  have hd : slotDecision env vars sfx = .stopSilent := by
    simp [slotDecision, hrepo, hsfx]
  simp [processSlots, processOneSlot, hd]

/-- Witness for C8: with `SCRIPT_REPO` and `SCRIPT_REPO3` declared but
`SCRIPT_REPO2` missing, the scan from slot 2 stops at once -- slot 3 is
present yet never reached. -/
theorem C8_slot_contiguity_witness :
    (str "2").isEmpty = false ∧
    truthy (varsGap (repoVar (str "2"))) = false ∧
    truthy (varsGap (repoVar (str "3"))) = true ∧
    processSlots envMissing varsGap [str "2", str "3", str "4"] (str "F") =
      ⟨str "F", [], none⟩ :=
  ⟨by decide, by decide, by decide,
   C8_slot_contiguity envMissing varsGap (str "2") [str "3", str "4"] (str "F")
     (by decide) (by decide)⟩

/-- C9: a script whose parsed variables contain `SCRIPT_SKIP` is left
byte-identical, and no action of any kind (checker invocation, rewrite or
marker append) is performed. -/
theorem C9_skip_honored (env : Env) (file : List Char)
    (h : get_script_vars (normNewlines file) (str "SCRIPT_SKIP") ≠ none) :
    (process_script env file).file = file ∧
    (process_script env file).actions = [] := by
  rw [process_script_skip h]
  exact ⟨rfl, rfl⟩

/-- Witness for C9: a script declaring `SCRIPT_SKIP="1"` alongside a
repository slot is not touched. -/
theorem C9_skip_honored_witness :
    get_script_vars (normNewlines (str "SCRIPT_SKIP=\"1\"\nSCRIPT_REPO=\"u\"\n"))
      (str "SCRIPT_SKIP") ≠ none ∧
    (process_script envMissing (str "SCRIPT_SKIP=\"1\"\nSCRIPT_REPO=\"u\"\n")).file =
      str "SCRIPT_SKIP=\"1\"\nSCRIPT_REPO=\"u\"\n" ∧
    (process_script envMissing (str "SCRIPT_SKIP=\"1\"\nSCRIPT_REPO=\"u\"\n")).actions = [] :=
  ⟨by decide,
   C9_skip_honored envMissing (str "SCRIPT_SKIP=\"1\"\nSCRIPT_REPO=\"u\"\n") (by decide)⟩

/-- C10: a slot variable assigned the empty string is treated as absent:
a script whose `SCRIPT_REPO` parses to `""` (with no `SCRIPT_SKIP`) gets
the manual-check marker and no slot is checked; and a slot whose `REV`,
`HGREV` and `COMMIT` variables all parse to `""` gets the unknown-layout
marker and stops the scan. -/
theorem C10_empty_value_absent :
    (∀ (env : Env) (file : List Char),
      get_script_vars (normNewlines file) (str "SCRIPT_SKIP") = none →
      get_script_vars (normNewlines file) (repoVar (str "")) = some [] →
      process_script env file =
        ⟨file ++ checkmeMarker, [Action.markCheckme], none⟩) ∧
    (∀ (env : Env) (vars : Vars) (sfx file : List Char),
      truthy (vars (repoVar sfx)) = true →
      vars (revVar sfx) = some [] →
      vars (hgrevVar sfx) = some [] →
      vars (commitVar sfx) = some [] →
      processOneSlot env vars sfx file =
        .stop (file ++ unknownMarker) [Action.markUnknown sfx] none) := by
  constructor
  · intro env file hskip hrepo
    rw [process_script_noskip hskip]
    have hrepo0 : get_script_vars (normNewlines file) (repoVar []) = some [] := hrepo
    have hd : slotDecision env (get_script_vars (normNewlines file)) (str "") =
        .markCheck := by
      simp [slotDecision, hrepo0, truthy, str]
    rw [show suffixes = str "" :: [str "2", str "3", str "4", str "5", str "6",
      str "7", str "8", str "9"] from rfl]
    simp [processSlots, processOneSlot, hd]
  · intro env vars sfx file hrepo hrev hhg hcm
    have hd : slotDecision env vars sfx = .markUnk := by
      have ht : truthy (some ([] : List Char)) = false := rfl
      simp [slotDecision, hrepo, hrev, hhg, hcm, ht]
    simp [processOneSlot, hd]

/-- C2 (amended): for an LF file, updating a variable maps each line
independently: every line beginning `NAME=` becomes the canonical
`NAME="NEWVALUE"` line and every other line is reproduced byte-identically
(line count preserved).  The original claim's CRLF clause fails: the file
is re-written with LF endings (see the counterexample). -/
theorem C2_update_single_line (file V v : List Char) (hV : goodName V)
    (hfr : '\r' ∉ file) (hvn : '\n' ∉ v) (hvr : '\r' ∉ v) :
    splitNl (update_script_content file V v) =
      (splitNl file).map (fun l =>
        if (V ++ ['=']).isPrefixOf l then canonicalLine V v else l) := by
  rw [splitNl_update file V v hV hvn hvr, normNewlines_of_no_cr hfr]
  rfl

/-- Witness for C2: rewriting `SCRIPT_COMMIT` in a two-line LF script. -/
theorem C2_update_single_line_witness :
    goodName (str "SCRIPT_COMMIT") ∧
    splitNl (update_script_content (str "SCRIPT_COMMIT=\"abc\"\nOTHER_LINE\n")
        (str "SCRIPT_COMMIT") (str "ffff")) =
      (splitNl (str "SCRIPT_COMMIT=\"abc\"\nOTHER_LINE\n")).map (fun l =>
        if ((str "SCRIPT_COMMIT") ++ ['=']).isPrefixOf l
        then canonicalLine (str "SCRIPT_COMMIT") (str "ffff") else l) :=
  ⟨by decide, C2_update_single_line (str "SCRIPT_COMMIT=\"abc\"\nOTHER_LINE\n")
    (str "SCRIPT_COMMIT") (str "ffff") (by decide) (by decide) (by decide) (by decide)⟩

/-- Counterexample to C2's line-ending clause: a CRLF script loses its
`\r\n` endings on update -- the untouched line `KEEP` is no longer
followed by `\r\n` in the rewritten file. -/
theorem C2_crlf_not_preserved :
    hasInfix (str "KEEP\r\n") (str "SCRIPT_COMMIT=\"a\"\r\nKEEP\r\n") = true ∧
    update_script_content (str "SCRIPT_COMMIT=\"a\"\r\nKEEP\r\n")
      (str "SCRIPT_COMMIT") (str "b") = str "SCRIPT_COMMIT=\"b\"\nKEEP\n" ∧
    hasInfix (str "KEEP\r\n")
      (update_script_content (str "SCRIPT_COMMIT=\"a\"\r\nKEEP\r\n")
        (str "SCRIPT_COMMIT") (str "b")) = false :=
  ⟨by decide, by decide, by decide⟩

/-- C4 (amended): the SVN checker never raises once the `svn` binary is
present (its run has no `check=True`); the Mercurial checker maps a missing
`hg` binary to "no update"; the Git checker never raises once the `git`
binary is present.  The original claim fails for a missing `svn`/`git`
binary (`FileNotFoundError` escapes) and for malformed Mercurial output
(`IndexError` escapes): see the counterexample. -/
theorem C4_checker_boundary :
    (∀ (env : SvnEnv) (repo cur : List Char),
      env.svnInfo repo ≠ CmdResult.toolMissing →
      ∃ o, check_svn_repo env repo cur = .ok o) ∧
    (∀ (env : HgEnv) (repo cur : List Char),
      env.hgInit = CmdResult.toolMissing ∨ env.hgIn repo = CmdResult.toolMissing →
      check_hg_repo env repo cur = .ok none) ∧
    (∀ (env : GitEnv) (repo cur : List Char) (branch tf : Option (List Char)),
      env.remoteShow repo ≠ CmdResult.toolMissing →
      (∀ f, env.lsRemoteTags repo f ≠ CmdResult.toolMissing) →
      (∀ b, env.lsRemoteHeads repo b ≠ CmdResult.toolMissing) →
      ∃ o, check_git_repo env repo cur branch tf = .ok o) := by
  refine ⟨?_, ?_, ?_⟩
  · intro env repo cur hmiss
    cases hrun : env.svnInfo repo with
    | toolMissing => exact absurd hrun hmiss
    | ran rc out err =>
      simp only [check_svn_repo, hrun]
      split
      · exact ⟨none, rfl⟩
      · split
        · exact ⟨_, rfl⟩
        · exact ⟨none, rfl⟩
  · intro env repo cur hdisj
    cases hinit : env.hgInit with
    | toolMissing => simp [check_hg_repo, hinit]
    | ran rc out err =>
      rcases hdisj with h | h
      · rw [hinit] at h
        exact absurd h (by simp)
      · simp only [check_hg_repo, hinit]
        split
        · rw [h]
        · rfl
  · intro env repo cur branch tf hshow htags hheads
    simp only [check_git_repo]
    split
    · split
      · rename_i heq
        exact absurd heq (htags _)
      · split
        · split
          · exact ⟨_, rfl⟩
          · exact ⟨none, rfl⟩
        · exact ⟨none, rfl⟩
    · split
      · rename_i e heq
        split at heq
        · exact absurd heq (by simp)
        · simp only [get_git_default_branch] at heq
          split at heq
          · rename_i hsh
            exact absurd hsh hshow
          · split at heq <;> exact absurd heq (by simp)
      · split
        · split
          · rename_i heq2
            exact absurd heq2 (hheads _)
          · split
            · split
              · exact ⟨_, rfl⟩
              · exact ⟨none, rfl⟩
            · exact ⟨none, rfl⟩
        · exact ⟨none, rfl⟩

/-- Counterexample to C4: a missing `svn` or `git` binary makes the
checker raise `FileNotFoundError` past its boundary, and a Mercurial
output line containing `changeset` with fewer than three `:`-fields makes
`check_hg_repo` raise `IndexError`. -/
theorem C4_exceptions_escape :
    check_svn_repo ⟨fun _ => CmdResult.toolMissing⟩ (str "u") (str "1")
      = .error PyExc.fileNotFoundError ∧
    check_git_repo ⟨fun _ => CmdResult.toolMissing, fun _ _ => CmdResult.toolMissing,
        fun _ _ => CmdResult.toolMissing⟩ (str "u") (str "c") none (some (str "v*"))
      = .error PyExc.fileNotFoundError ∧
    check_hg_repo ⟨CmdResult.ran 0 [] [],
        fun _ => CmdResult.ran 0 (str "searching for changesets\n") []⟩
      (str "u") (str "1") = .error PyExc.indexError :=
  ⟨by decide, by decide, by decide⟩

/-- C5 (amended): a stripped line is captured as an assignment exactly when
it has the shape `NAME=<q1>VALUE<q2>` for a nonempty word-character `NAME`
and two independently chosen (possibly mismatched) quote characters; and
the last occurrence of a name wins.  The fixed-name-set, matching-quote and
line-start clauses of the original claim fail: see the counterexample. -/
theorem C5_parser_characterization :
    (∀ line n v : List Char, parseAssign line = some (n, v) ↔
      ∃ q1 q2, isQuote q1 = true ∧ isQuote q2 = true ∧ n ≠ [] ∧
        (∀ c ∈ n, isWordChar c = true) ∧
        pyStrip line = n ++ '=' :: q1 :: (v ++ [q2])) ∧
    (∀ content W : List Char,
      get_script_vars content W = lastAssign W (pySplitlines content)) :=
  ⟨fun line n v => parseAssign_eq_some_iff line n v,
   fun content W => get_script_vars_eq content W⟩

/-- Counterexample to C5: a name outside the fixed set with mismatched
quotes is captured, and so is an indented assignment with trailing blanks
(the line is stripped first); the spec-shaped parser accepts neither. -/
theorem C5_fixed_set_refuted :
    parseAssign (str "FOO='x\"") = some (str "FOO", str "x") ∧
    specName (str "FOO") = false ∧
    specAssign (str "FOO='x\"") = none ∧
    parseAssign (str "  SCRIPT_REPO=\"u\"  ") = some (str "SCRIPT_REPO", str "u") ∧
    specAssign (str "  SCRIPT_REPO=\"u\"  ") = none :=
  ⟨by decide, by decide, by decide, by decide, by decide⟩

/-- Witness for C3: an SVN slot at stored revision 5 with the remote at
revision 7 is rewritten once; the second run changes nothing. -/
theorem process_twice_witness :
    noMarkerActions (process_script envSvn7 fileSvn5).actions ∧
    (process_script envSvn7 (process_script envSvn7 fileSvn5).file).file =
      (process_script envSvn7 fileSvn5).file :=
  ⟨by decide, process_twice envSvn7 fileSvn5 (by decide)⟩

/-- Counterexample to C3 as stated: a script with no repository slot has
the manual-check marker appended again by the second run, so the file is
not byte-identical -- the markers are appended unconditionally. -/
theorem process_twice_counterexample :
    (process_script envMissing (process_script envMissing fileNoRepo).file).file ≠
      (process_script envMissing fileNoRepo).file := by
  decide

end UpdateScripts
